import Mathlib

/-!
Verification development for the iplocbuild repository (src/iplocbuild/cli.py).

The program assigns IPv4 CIDR ranges to cities.  Its data structure is the
netaddr `IPSet`: a set of IPv4 addresses kept as a compacted list of CIDR
blocks.  We embed an IPv4 address as a `Nat` (< 2^32), a CIDR block as a
network value plus prefix length, and an `IPSet` as a list of CIDR blocks with
address-set semantics (netaddr keeps the list normalized; all of its
operations used by the program — `add`, `|`, `-`, `remove`, membership `in`,
and `iter_cidrs()` — act on the underlying address set, with membership of a
network meaning subset and `iter_cidrs` producing the minimal aligned-block
decomposition).

All recursive block computations are structural on an explicit fuel equal to
the number of remaining prefix-length levels, so everything evaluates by
`decide` / `rfl`.
-/

namespace Iplocbuild

/-- An IPv4 CIDR block: network value and prefix length (as parsed from
`rt-destination` / `rt-prefix-length`, or a configured CIDR string).
The address set of the block is the aligned block of size `2^(32-len)`
containing `net`; this matches netaddr's `.cidr` normalization of host bits. -/
structure Cidr where
  net : Nat
  len : Nat
deriving DecidableEq, Repr

/-- Number of addresses in the block. -/
def Cidr.size (c : Cidr) : Nat := 2 ^ (32 - c.len)

/-- First address of the (aligned) block. -/
def Cidr.first (c : Cidr) : Nat := c.net / c.size * c.size

/-- Address membership in a block. -/
def Cidr.memA (c : Cidr) (a : Nat) : Bool := a / c.size == c.net / c.size

/-- A block is well formed when its prefix length is at most 32 and its
network value is a 32-bit quantity (netaddr guarantees both for IPv4). -/
def Cidr.wf (c : Cidr) : Bool := decide (c.len ≤ 32) && decide (c.net < 2 ^ 32)

/-- The representation of a netaddr `IPSet`: a list of CIDR blocks whose
address set is the union of the blocks' address sets. -/
abbrev IPSet := List Cidr

/-- Address membership in an `IPSet` (the set-of-addresses semantics). -/
def addrIn (s : IPSet) (a : Nat) : Bool := s.any (fun c => c.memA a)

/-- Block containment `c ⊆ d` for aligned blocks. -/
def subBlock (c d : Cidr) : Bool := decide (d.len ≤ c.len) && d.memA c.net

/-- Two aligned blocks overlap iff one contains the other. -/
def overlapB (c d : Cidr) : Bool := subBlock c d || subBlock d c

/-- Lower half of a block (one more prefix bit). -/
def half0 (c : Cidr) : Cidr := ⟨c.first, c.len + 1⟩

/-- Upper half of a block (one more prefix bit). -/
def half1 (c : Cidr) : Cidr := ⟨c.first + c.size / 2, c.len + 1⟩

/-- Fueled subset test of a block against an `IPSet`: `c` is covered when a
single entry contains it, and otherwise when both halves are covered.  This
implements netaddr's membership test `cidr in ipset` (which holds exactly
when the network's address set is contained in the set, the set being kept
in normalized form). -/
def coveredByF (s : IPSet) : Nat → Cidr → Bool
  | fuel, c =>
    if s.any (fun e => subBlock c e) then true
    else if !(s.any (fun e => overlapB c e)) then false
    else match fuel with
      | 0 => false
      | fuel + 1 => coveredByF s fuel (half0 c) && coveredByF s fuel (half1 c)

/-- Subset test `cidr in ipset` of the program. -/
def coveredBy (c : Cidr) (s : IPSet) : Bool := coveredByF s (32 - c.len) c

/-- Fueled difference of a block against an `IPSet`, as a list of blocks. -/
def blockDiffF (t : IPSet) : Nat → Cidr → IPSet
  | fuel, c =>
    if coveredBy c t then []
    else if !(t.any (fun e => overlapB c e)) then [c]
    else match fuel with
      | 0 => [c]
      | fuel + 1 => blockDiffF t fuel (half0 c) ++ blockDiffF t fuel (half1 c)

/-- Difference of two `IPSet`s (netaddr `-`, and `remove`, which always
subtracts the given network from the set). -/
def ipDiff (s t : IPSet) : IPSet := s.flatMap (fun c => blockDiffF t (32 - c.len) c)

/-- Fueled minimal-decomposition: the maximal aligned sub-blocks of `c`
covered by `s`, in ascending address order. -/
def blockEntriesF (s : IPSet) : Nat → Cidr → IPSet
  | fuel, c =>
    if coveredBy c s then [c]
    else if !(s.any (fun e => overlapB c e)) then []
    else match fuel with
      | 0 => []
      | fuel + 1 => blockEntriesF s fuel (half0 c) ++ blockEntriesF s fuel (half1 c)

/-- netaddr `IPSet.iter_cidrs()`: the minimal list of CIDRs of the set, in
ascending order (also `ipset_to_list` in cli.py, which stringifies it). -/
def iterCidrs (s : IPSet) : IPSet := blockEntriesF s 32 ⟨0, 0⟩

/-! ## Route classifier (`get_routes`)

`get_routes` extracts the AS-path origin with the regular expression
`AS path: ([\d\?I\s]+) [\w\(]` (re.match, anchored at the start).  We model
the text as a `List Char` and the regex directly: after the literal
`"AS path: "`, the greedy group takes the longest prefix of characters from
the class `[0-9?I\s]` that is followed by a space and one `[A-Za-z0-9_(]`
character.  (We model the ASCII fragment of `\s` and `\w`, which is what
Junos AS-path text contains.) -/

/-- Characters of the regex class `[\d\?I\s]` (ASCII fragment of `\s`). -/
def isClassChar (ch : Char) : Bool :=
  ch.isDigit || ch == '?' || ch == 'I' ||
    ch == ' ' || ch == '\t' || ch == '\n' || ch == '\r' || ch == '\x0b' || ch == '\x0c'

/-- Characters matching `[\w\(]` (ASCII fragment of `\w`). -/
def isWordParen (ch : Char) : Bool := ch.isAlphanum || ch == '_' || ch == '('

/-- Python whitespace for `str.split()` (ASCII fragment). -/
def pyIsSpace (ch : Char) : Bool :=
  ch == ' ' || ch == '\t' || ch == '\n' || ch == '\r' || ch == '\x0b' || ch == '\x0c'

/-- Helper for `pySplit`: `cur` is the reversed current token. -/
def pySplitGo : List Char → List Char → List (List Char)
  | [], cur => if cur.isEmpty then [] else [cur.reverse]
  | ch :: rest, cur =>
    if pyIsSpace ch then
      if cur.isEmpty then pySplitGo rest [] else cur.reverse :: pySplitGo rest []
    else pySplitGo rest (ch :: cur)

/-- `str.split()` with no argument: split on whitespace runs, drop empties. -/
def pySplit (l : List Char) : List (List Char) := pySplitGo l []

/-- Does the group of length `k` match at `rest` (all class characters,
followed by a space and a `[\w(]` character)? -/
def groupAt (rest : List Char) (k : Nat) : Bool :=
  decide (1 ≤ k) && (rest.take k).all isClassChar &&
    (match rest.drop k with
     | ' ' :: d :: _ => isWordParen d
     | _ => false)

/-- Greedy search: the longest group length `≤ k` that matches. -/
def tryGroup (rest : List Char) : Nat → Option (List Char)
  | 0 => none
  | k + 1 => if groupAt rest (k + 1) then some (rest.take (k + 1)) else tryGroup rest k

/-- `aspathRE.match(text)`, returning `group(1)` on success. -/
def aspathMatch (text : List Char) : Option (List Char) :=
  if text.take 9 = "AS path: ".data then
    tryGroup (text.drop 9) (text.length - 9)
  else none

/-- One raw `rt` element of the device response: destination block
(`rt-destination`/`rt-prefix-length`) and the raw `as-path` text. -/
structure RawRoute where
  dest : Cidr
  aspath : List Char
deriving DecidableEq, Repr

/-- The per-route body of the loop in `get_routes` (cli.py lines 76-120),
acting on the accumulated `(prefixSet, carvedSet)`.  `none` models the
`IndexError` raised by `fullaspath[0]` when the matched group is pure
whitespace (caught by the enclosing `except`). -/
def classifyStep (paSpaceSet : IPSet) (piSpace : Bool) (acc : IPSet × IPSet)
    (rt : RawRoute) : Option (IPSet × IPSet) :=
  if 32 ≤ rt.dest.len then some acc
  else if piSpace && coveredBy rt.dest paSpaceSet then
    match aspathMatch rt.aspath with
    | none => some acc
    | some g =>
      match pySplit g with
      | [] => none
      | tok :: _ =>
        if tok = ['I'] || tok = ['?'] then some acc
        else some (acc.1, acc.2 ++ [rt.dest])
  else some (acc.1 ++ [rt.dest], acc.2)

/-- The external world: what the device RPC returns for a host and community
list; `none` models a connection/RPC failure (the broad `except` path). -/
def World : Type := String → List String → Option (List RawRoute)

/-- Log line printed by the `except` handler of `get_routes`. -/
def connectErr (host : String) : String := "ERROR: Connecting to " ++ host ++ " failed"

/-- `get_routes(host, communities, piSpace)` (cli.py lines 41-126): returns
`(prefixSet, carvedSet, log)`.  `(none, none)` is returned when the device
query fails, when no route matches the communities, or when the stray
`IndexError` is raised inside the loop (all collapsed to the same handler). -/
def get_routes (world : World) (host : String) (communities : List String)
    (paSpaceSet : IPSet) (piSpace : Bool) :
    Option IPSet × Option IPSet × List String :=
  match world host communities with
  | none => (none, none, [connectErr host])
  | some routes =>
    if routes.isEmpty then (none, none, [])
    else
      match routes.foldlM (fun acc rt => classifyStep paSpaceSet piSpace acc rt) ([], []) with
      | none => (none, none, [connectErr host])
      | some (p, c) => (some p, some c, [])

/-! ## Region store and consolidation engine (the `cli` function)

The program's `cities` global is a Python dict, iterated in insertion order =
configuration enumeration order.  We model it as an association list with
unique keys.  Per-city working fields mirror cli.py lines 221-249. -/

/-- One entry of the configuration's `cities` mapping. -/
structure CityCfg where
  name : String
  country : String
  regionLabel : Option String
  cidrs : List Cidr
  override : List Cidr
  community : Option String
  device : Option String
deriving Repr, DecidableEq

/-- The whole configuration document (fields the engine uses). -/
structure Config where
  paspace : List Cidr
  cities : List CityCfg
deriving Repr, DecidableEq

/-- One city's record in the `cities` dict during a run. -/
structure CityState where
  base : IPSet
  additions : IPSet
  exclude : IPSet
  country : String
  regionLabel : String
  piSpace : IPSet
  smallpiSpace : IPSet
  carvedSpace : IPSet
  override : IPSet
  community : Option String
  device : Option String
deriving Repr, DecidableEq

/-- The `cities` dict: name → state, in configuration order. -/
abbrev CState := List (String × CityState)

/-- `cities[name]` lookup. -/
def getCity (cs : CState) (name : String) : Option CityState :=
  (cs.find? (fun p => p.1 == name)).map (fun p => p.2)

/-- In-place update of one city's record. -/
def updateCity (cs : CState) (name : String) (f : CityState → CityState) : CState :=
  cs.map (fun p => if p.1 == name then (p.1, f p.2) else p)

/-- cli.py lines 221-249: build the `cities` dict from the configuration. -/
def initCities (l : List CityCfg) : CState :=
  l.map (fun c =>
    (c.name,
      { base := c.cidrs
        additions := []
        exclude := []
        country := c.country
        regionLabel := c.regionLabel.getD ""
        piSpace := []
        smallpiSpace := []
        carvedSpace := []
        override := c.override
        community := c.community
        device := c.device }))

/-- The body of the per-CIDR loop of `process_routes` (cli.py lines 142-187):
classify one candidate range `cidr` for target city `city` with the
`(piSpace, carvedSpace)` flags.  The supernet scan walks the dict in
configuration order and stops at the first match. -/
def processOne (cs : CState) (city : String) (piSpace carvedSpace : Bool)
    (cidr : Cidr) : CState :=
  match getCity cs city with
  | none => cs
  | some st =>
    if coveredBy cidr st.base then
      if carvedSpace then
        updateCity cs city (fun s =>
          { s with exclude := s.exclude ++ [cidr], carvedSpace := s.carvedSpace ++ [cidr] })
      else cs
    else
      match cs.find? (fun p => coveredBy cidr p.2.base) with
      | some sn =>
        let cs1 := updateCity cs sn.1 (fun s => { s with exclude := s.exclude ++ [cidr] })
        if carvedSpace then
          updateCity cs1 city (fun s => { s with carvedSpace := s.carvedSpace ++ [cidr] })
        else
          updateCity cs1 city (fun s => { s with additions := s.additions ++ [cidr] })
      | none =>
        if piSpace then
          updateCity cs city (fun s => { s with piSpace := s.piSpace ++ [cidr] })
        else
          updateCity cs city (fun s => { s with smallpiSpace := s.smallpiSpace ++ [cidr] })

/-- `process_routes(prefixSet, country, city, piSpace, carvedSpace)`
(cli.py lines 129-187): fold every minimal CIDR of `prefixSet` into the
city table.  (`country` is only used for logging.) -/
def process_routes (cs : CState) (prefixSet : IPSet) (country city : String)
    (piSpace carvedSpace : Bool) : CState :=
  (iterCidrs prefixSet).foldl (fun acc cidr => processOne acc city piSpace carvedSpace cidr) cs

/-- Folding of one optional classifier result (the `if ... is not None`
guards around the `process_routes` calls, cli.py lines 304-324). -/
def foldOpt (cs : CState) (r : Option IPSet) (country city : String) (pi cv : Bool) : CState :=
  match r with
  | none => cs
  | some s => process_routes cs s country city pi cv

/-- Phase 1 (cli.py lines 257-266): every `(cidr, city, checkCity)` triple
printed by the overlap check, in loop order. -/
def phase1Reports (cs : CState) : List (Cidr × String × String) :=
  cs.flatMap (fun p =>
    (iterCidrs p.2.base).flatMap (fun cidr =>
      cs.filterMap (fun q =>
        if q.1 ≠ p.1 && coveredBy cidr q.2.base then some (cidr, p.1, q.1) else none)))

/-- The fixed community markers appended by the engine (cli.py lines 300, 314). -/
def ownMarker : String := "8220:65404"

/-- PI-cycle community marker. -/
def piMarker : String := "8220:65403"

/-- The per-city body of the main query loop (cli.py lines 275-324): skip the
city unless both `community` and `device` are present and non-empty, then run
the own/small-PI cycle and the external/PI cycle, folding each non-`None`
result.  The accumulator carries `(cities, logs, issued queries)`. -/
def processCity (world : World) (paSpaceSet : IPSet)
    (acc : CState × List String × List (String × List String)) (city : String) :
    CState × List String × List (String × List String) :=
  match getCity acc.1 city with
  | none => acc
  | some st =>
    match st.community, st.device with
    | some community, some device =>
      if community = "" || device = "" then acc
      else
        let country := st.country
        let r1 := get_routes world device [community, ownMarker] paSpaceSet false
        let cs1 := match r1.1 with
          | none => acc.1
          | some prefixSet => process_routes acc.1 prefixSet country city false false
        let cs2 := match r1.2.1 with
          | none => cs1
          | some carvedSet => process_routes cs1 carvedSet country city false true
        let r2 := get_routes world device [community, piMarker] paSpaceSet true
        let cs3 := match r2.1 with
          | none => cs2
          | some prefixSet => process_routes cs2 prefixSet country city true false
        let cs4 := match r2.2.1 with
          | none => cs3
          | some carvedSet => process_routes cs3 carvedSet country city true true
        (cs4, acc.2.1 ++ r1.2.2 ++ r2.2.2,
          acc.2.2 ++ [(device, [community, ownMarker]), (device, [community, piMarker])])
    | _, _ => acc

/-- Phase 5 (cli.py lines 328-345): drop, per city, any `piSpace` entry that
contains some minimal CIDR of the union of all `smallpiSpace` sets (first
matching entry per small CIDR, then break). -/
def phase5 (cs : CState) : CState :=
  let smallPISpace := cs.foldl (fun acc p => acc ++ p.2.smallpiSpace) []
  cs.map (fun p =>
    (p.1,
      { p.2 with
        piSpace :=
          (iterCidrs smallPISpace).foldl
            (fun pi smallcidr =>
              match (iterCidrs pi).find? (fun cidr => subBlock smallcidr cidr) with
              | some cidr => ipDiff pi [cidr]
              | none => pi)
            p.2.piSpace }))

/-- Phase 6 (cli.py lines 351-366): consolidate
`base = base ∪ additions − exclude ∪ override` and
`piSpace = piSpace ∪ smallpiSpace ∪ carvedSpace`. -/
def phase6 (cs : CState) : CState :=
  cs.map (fun p =>
    (p.1,
      { p.2 with
        base := ipDiff (p.2.base ++ p.2.additions) p.2.exclude ++ p.2.override
        piSpace := p.2.piSpace ++ p.2.smallpiSpace ++ p.2.carvedSpace }))

/-- The per-`checkCity` removal of phase 7 (cli.py lines 375-382): a netaddr
`remove` guarded by the membership (subset) test. -/
def overrideRemove (s : IPSet) (cidr : Cidr) : IPSet :=
  if coveredBy cidr s then ipDiff s [cidr] else s

/-- Phase 7 (cli.py lines 370-384): for every city in order, remove each
minimal CIDR of its override from every other city's `base` and `piSpace`. -/
def phase7 (cs : CState) : CState :=
  cs.foldl
    (fun acc p =>
      match getCity acc p.1 with
      | none => acc
      | some st =>
        (iterCidrs st.override).foldl
          (fun acc2 cidr =>
            acc2.map (fun q =>
              if q.1 == p.1 then q
              else
                (q.1,
                  { q.2 with
                    base := overrideRemove q.2.base cidr
                    piSpace := overrideRemove q.2.piSpace cidr })))
          acc)
    cs

/-- One city's final exported data (cli.py lines 388-393). -/
structure CityOut where
  name : String
  country : String
  regionLabel : String
  cidrs : IPSet
  piCidrs : IPSet
deriving Repr, DecidableEq

/-- Export projection: `cidrs = ipset_to_list(base)`,
`piCidrs = ipset_to_list(piSpace)`. -/
def outputsOf (cs : CState) : List CityOut :=
  cs.map (fun p => ⟨p.1, p.2.country, p.2.regionLabel, iterCidrs p.2.base, iterCidrs p.2.piSpace⟩)

/-- Python `sys.exit(x)` raises `SystemExit x`; the interpreter exits with
status 0 when the value is `None`, else with the given small integer. -/
def sysExitStatus : Option Nat → Nat
  | none => 0
  | some n => n

/-- The observable outcome of one run of the `cli` command. -/
structure RunResult where
  reports : List (Cidr × String × String)
  aborted : Bool
  exitCode : Nat
  queries : List (String × List String)
  logs : List String
  outputs : List CityOut
deriving Repr

/-- Phase 3/4: the whole query-and-fold loop over the configured cities, in
configuration order, starting from the freshly initialized city table. -/
def mainFold (cfg : Config) (world : World) :
    CState × List String × List (String × List String) :=
  (cfg.cities.map (fun c => c.name)).foldl (processCity world cfg.paspace)
    (initCities cfg.cities, [], [])

/-- The city table after the query phase. -/
def mainState (cfg : Config) (world : World) : CState := (mainFold cfg world).1

/-- The whole `cli` entry point (cli.py lines 208-452) for a parsed
configuration and a given external world.  On a phase-1 overlap the code
calls `sys.exit()` with no argument (line 268), i.e. `SystemExit None`. -/
def runCli (cfg : Config) (world : World) : RunResult :=
  let cs0 := initCities cfg.cities
  let reports := phase1Reports cs0
  if !reports.isEmpty then
    { reports := reports
      aborted := true
      exitCode := sysExitStatus none
      queries := []
      logs := []
      outputs := [] }
  else
    let f := mainFold cfg world
    let cs4 := phase7 (phase6 (phase5 f.1))
    { reports := []
      aborted := false
      exitCode := 0
      queries := f.2.2
      logs := f.2.1
      outputs := outputsOf cs4 }

/-! ## Executable side conditions used as hypotheses -/

/-- All blocks of a list are well formed. -/
def ipWf (s : IPSet) : Bool := s.all Cidr.wf

/-- No block of the list is a single-host (/32) route. -/
def ipNoHost (s : IPSet) : Bool := s.all (fun c => decide (c.len ≤ 31))

/-- Two `IPSet`s are disjoint as address sets (blocks overlap only when
nested, so pairwise block overlap decides it). -/
def ipDisjoint (s t : IPSet) : Bool := s.all (fun c => t.all (fun d => !overlapB c d))

/-- Configuration well-formedness: every configured block is an IPv4 block. -/
def cfgWf (cfg : Config) : Bool :=
  ipWf cfg.paspace && cfg.cities.all (fun c => ipWf c.cidrs && ipWf c.override)

/-- No configured base or override block is a single-host route. -/
def cfgNoHost (cfg : Config) : Bool :=
  cfg.cities.all (fun c => ipNoHost c.cidrs && ipNoHost c.override)

/-- City names are pairwise distinct (Python dict keys). -/
def cfgUniqueNames (cfg : Config) : Bool :=
  (cfg.cities.map (fun c => c.name)).Nodup

/-- The additions granted to distinct cities are pairwise disjoint. -/
def addDisjoint (cs : CState) : Bool :=
  cs.all (fun p => cs.all (fun q => p.1 == q.1 || ipDisjoint p.2.additions q.2.additions))

/-- All overrides of a city table are empty. -/
def noOverrides (cs : CState) : Bool := cs.all (fun p => p.2.override.isEmpty)

/-- Final `cidrs` list of a named city in a run result. -/
def outCidrs (r : RunResult) (name : String) : IPSet :=
  (((r.outputs.find? (fun o => o.name == name)).map (fun o => o.cidrs))).getD []

/-! ## Concrete instances used in witnesses and counterexamples -/

/-- 10.0.0.0/16. -/
def blk10s16 : Cidr := ⟨167772160, 16⟩

/-- 10.0.0.0/24. -/
def blk10s24 : Cidr := ⟨167772160, 24⟩

/-- 10.0.5.0/24. -/
def blk105s24 : Cidr := ⟨167773440, 24⟩

/-- 20.0.0.0/24. -/
def blk20s24 : Cidr := ⟨335544320, 24⟩

/-- 30.0.0.0/24. -/
def blk30s24 : Cidr := ⟨503316480, 24⟩

/-- 10.0.0.0/8. -/
def blk10s8 : Cidr := ⟨167772160, 8⟩

/-- 1.2.3.4/32 (a single-host route). -/
def blk1234s32 : Cidr := ⟨16909060, 32⟩

/-- Configuration entry shorthand. -/
def mkCity (name country : String) (cidrs ovr : List Cidr)
    (community device : Option String) : CityCfg :=
  { name := name, country := country, regionLabel := none, cidrs := cidrs,
    override := ovr, community := community, device := device }

/-- A city record with empty allocation and working sets. -/
def stEmpty : CityState :=
  { base := [], additions := [], exclude := [], country := "", regionLabel := "",
    piSpace := [], smallpiSpace := [], carvedSpace := [], override := [],
    community := none, device := none }

/-- World in which every query fails. -/
def worldNone : World := fun _ _ => none

/-- Region Q owns 10.0.0.0/16; R1 and R2 are small regions with devices. -/
def cfgC1 : Config :=
  { paspace := []
    cities := [mkCity "Q" "DE" [blk10s16] [] none none,
      mkCity "R1" "GB" [blk20s24] [] (some "cr1") (some "d1"),
      mkCity "R2" "FR" [blk30s24] [] (some "cr2") (some "d2")] }

/-- Both R1's and R2's own-cycle queries return the same range carved out of
Q's base; the PI cycles fail. -/
def worldC1 : World := fun _ comms =>
  if comms = ["cr1", ownMarker] then some [⟨blk10s24, []⟩]
  else if comms = ["cr2", ownMarker] then some [⟨blk10s24, []⟩]
  else none

/-- A configuration whose two base allocations overlap. -/
def cfgOverlap : Config :=
  { paspace := []
    cities := [mkCity "A" "DE" [blk10s16] [] none none,
      mkCity "B" "GB" [blk10s24] [] none none] }

/-- A configuration with a single-host base range. -/
def cfgHost : Config :=
  { paspace := [], cities := [mkCity "A" "DE" [blk1234s32] [] none none] }

/-- A well-formed two-region configuration with disjoint bases. -/
def cfgDisjoint : Config :=
  { paspace := []
    cities := [mkCity "A" "DE" [blk10s16] [] none none,
      mkCity "B" "GB" [blk20s24] [] none none] }

/-- Phase-7 input: A's override is a strict subset of B's holdings. -/
def csC7 : CState :=
  [("A", { stEmpty with override := [blk105s24] }),
   ("B", { stEmpty with base := [blk10s16] })]

/-- PA space for the classifier counterexample. -/
def paC9 : IPSet := [blk105s24]

/-- A route partially overlapping the PA space (not a subset). -/
def rtC9a : RawRoute := ⟨blk10s8, []⟩

/-- A route inside the PA space announced by an external ASN. -/
def rtC9b : RawRoute := ⟨blk105s24, ("AS path: 65001 65000 I (Originator)").data⟩

/-- A route inside the PA space announced internally. -/
def rtC3i : RawRoute := ⟨blk105s24, ("AS path: I (Originator)").data⟩

/-- World returning the two C9 routes for every query. -/
def worldC9 : World := fun _ _ => some [rtC9a, rtC9b]

/-- World returning only the carved route. -/
def worldI : World := fun _ _ => some [rtC9b]

/-- Classifier result for the C9 scenario. -/
def resC9 : Option IPSet × Option IPSet × List String :=
  get_routes worldC9 "h" ["x"] paC9 true

/-- One-city table for the query-failure scenario. -/
def csC8 : CState :=
  [("A", { stEmpty with base := [blk10s16], community := some "c", device := some "d" })]

/-- Two-city table for the folding-rule witness. -/
def csC2 : CState :=
  [("Q", { stEmpty with base := [blk10s16] }),
   ("R", { stEmpty with base := [blk20s24] })]

/-- The initialized entry of city A of `cfgOverlap`. -/
def entA : String × CityState := ("A", { stEmpty with base := [blk10s16], country := "DE" })

/-- The initialized entry of city B of `cfgOverlap`. -/
def entB : String × CityState := ("B", { stEmpty with base := [blk10s24], country := "GB" })

/-! ## Invariants of the consolidation engine (proved below) -/

/-- The projection of the city table that the phase-4 fold never modifies:
name, base and override of every city, in order. -/
def baseMap (cs : CState) : List (String × IPSet × IPSet) :=
  cs.map (fun p => (p.1, p.2.base, p.2.override))

/-- Phase-4 invariant: an address granted to some city's `additions` that
lies in a city's `base` has been put into that city's `exclude`. -/
def AddCross (cs : CState) : Prop :=
  ∀ p ∈ cs, ∀ q ∈ cs, ∀ a : Nat, addrIn p.2.additions a = true →
    addrIn q.2.base a = true → addrIn q.2.exclude a = true

/-- Distinct cities' bases are address-disjoint (established by phase 1). -/
def BaseDisj (cs : CState) : Prop :=
  ∀ p ∈ cs, ∀ q ∈ cs, p.1 ≠ q.1 →
    ∀ a : Nat, ¬(addrIn p.2.base a = true ∧ addrIn q.2.base a = true)

/-- Every base entry is an IPv4 block. -/
def Base32 (cs : CState) : Prop := ∀ p ∈ cs, ∀ e ∈ p.2.base, e.len ≤ 32

/-- All block lists of one city record are bounded by prefix length `B`. -/
def stateLenB (B : Nat) (st : CityState) : Prop :=
  (∀ e ∈ st.base, e.len ≤ B) ∧ (∀ e ∈ st.additions, e.len ≤ B) ∧
  (∀ e ∈ st.exclude, e.len ≤ B) ∧ (∀ e ∈ st.piSpace, e.len ≤ B) ∧
  (∀ e ∈ st.smallpiSpace, e.len ≤ B) ∧ (∀ e ∈ st.carvedSpace, e.len ≤ B) ∧
  (∀ e ∈ st.override, e.len ≤ B)

/-- All block lists of the whole city table are bounded by `B`. -/
def LenB (B : Nat) (cs : CState) : Prop := ∀ p ∈ cs, stateLenB B p.2

/-! ## Arithmetic of aligned blocks -/

theorem Cidr.size_pos (c : Cidr) : 0 < c.size := by
  unfold Cidr.size; positivity

theorem nat_div_eq_iff {a q n : Nat} (hn : 0 < n) :
    a / n = q ↔ q * n ≤ a ∧ a < q * n + n := by
  constructor
  · intro h
    subst h
    refine ⟨Nat.div_mul_le_self a n, ?_⟩
    have h1 := Nat.div_add_mod a n
    have h2 := Nat.mod_lt a hn
    calc a = n * (a / n) + a % n := h1.symm
    _ < n * (a / n) + n := Nat.add_lt_add_left h2 _
    _ = a / n * n + n := by rw [Nat.mul_comm]
  · intro h
    have hq : q ≤ a / n := (Nat.le_div_iff_mul_le hn).mpr h.1
    have hlt : a / n < q + 1 := by
      rw [Nat.div_lt_iff_lt_mul hn]
      calc a < q * n + n := h.2
      _ = (q + 1) * n := by ring
    omega

theorem Cidr.memA_iff {c : Cidr} {a : Nat} :
    c.memA a = true ↔ c.first ≤ a ∧ a < c.first + c.size := by
  rw [Cidr.memA, Cidr.first, beq_iff_eq, nat_div_eq_iff c.size_pos]

theorem Cidr.memA_self (c : Cidr) : c.memA c.net = true := by
  simp [Cidr.memA]

theorem div_congr_of_dvd {a b m n : Nat} (h : m ∣ n) (hab : a / m = b / m) :
    a / n = b / n := by
  obtain ⟨k, rfl⟩ := h
  rw [← Nat.div_div_eq_div_mul, ← Nat.div_div_eq_div_mul, hab]

theorem size_dvd_size {c d : Cidr} (h : d.len ≤ c.len) : c.size ∣ d.size :=
  pow_dvd_pow 2 (Nat.sub_le_sub_left h 32)

theorem subBlock_mem {c d : Cidr} {a : Nat} (h : subBlock c d = true)
    (ha : c.memA a = true) : d.memA a = true := by
  simp only [subBlock, Bool.and_eq_true, decide_eq_true_eq] at h
  obtain ⟨hlen, hnet⟩ := h
  simp only [Cidr.memA, beq_iff_eq] at *
  rw [div_congr_of_dvd (size_dvd_size hlen) ha, hnet]

theorem subBlock_of_mem_mem {c d : Cidr} {a : Nat} (hlen : d.len ≤ c.len)
    (hc : c.memA a = true) (hd : d.memA a = true) : subBlock c d = true := by
  simp only [subBlock, Bool.and_eq_true, decide_eq_true_eq]
  refine ⟨hlen, ?_⟩
  simp only [Cidr.memA, beq_iff_eq] at *
  rw [← div_congr_of_dvd (size_dvd_size hlen) hc, hd]

theorem overlap_of_mem {c d : Cidr} {a : Nat} (hc : c.memA a = true)
    (hd : d.memA a = true) : overlapB c d = true := by
  rcases Nat.le_total d.len c.len with h | h
  · rw [overlapB, subBlock_of_mem_mem h hc hd, Bool.true_or]
  · rw [overlapB, subBlock_of_mem_mem h hd hc, Bool.or_true]

theorem subBlock_of_overlap_le {c e : Cidr} (hle : e.len ≤ c.len)
    (h : overlapB c e = true) : subBlock c e = true := by
  have h' : subBlock c e = true ∨ subBlock e c = true := by
    simpa [overlapB] using h
  rcases h' with h1 | h1
  · exact h1
  · simp only [subBlock, Bool.and_eq_true, decide_eq_true_eq] at h1 ⊢
    obtain ⟨hle2, hnet⟩ := h1
    have heq : e.len = c.len := Nat.le_antisymm hle hle2
    have hsz : e.size = c.size := by rw [Cidr.size, Cidr.size, heq]
    refine ⟨hle, ?_⟩
    simp only [Cidr.memA, beq_iff_eq, hsz] at *
    exact hnet.symm

theorem subBlock_trans {c d e : Cidr} (h1 : subBlock c d = true)
    (h2 : subBlock d e = true) : subBlock c e = true := by
  have hm : d.memA c.net = true := by
    simp only [subBlock, Bool.and_eq_true, decide_eq_true_eq] at h1
    exact h1.2
  have he : e.memA c.net = true := subBlock_mem h2 hm
  simp only [subBlock, Bool.and_eq_true, decide_eq_true_eq] at h1 h2 ⊢
  exact ⟨Nat.le_trans h2.1 h1.1, he⟩

theorem Cidr.first_add_size_le {c : Cidr} (h32 : c.len ≤ 32) (hnet : c.net < 2 ^ 32) :
    c.first + c.size ≤ 2 ^ 32 := by
  have hdvd : c.size ∣ 2 ^ 32 := by
    refine ⟨2 ^ c.len, ?_⟩
    rw [Cidr.size, ← pow_add]
    congr 1
    omega
  have hq : c.net / c.size + 1 ≤ 2 ^ 32 / c.size :=
    Nat.succ_le_of_lt (Nat.div_lt_div_of_lt_of_dvd hdvd hnet)
  have h2 : (c.net / c.size + 1) * c.size ≤ 2 ^ 32 / c.size * c.size :=
    Nat.mul_le_mul_right _ hq
  rw [Nat.div_mul_cancel hdvd] at h2
  calc c.first + c.size = (c.net / c.size + 1) * c.size := by rw [Cidr.first]; ring
  _ ≤ 2 ^ 32 := h2

theorem Cidr.memA_lt {c : Cidr} {a : Nat} (hwf : c.wf = true) (h : c.memA a = true) :
    a < 2 ^ 32 := by
  simp only [Cidr.wf, Bool.and_eq_true, decide_eq_true_eq] at hwf
  have h2 := Cidr.memA_iff.mp h
  have h3 := Cidr.first_add_size_le hwf.1 hwf.2
  omega

theorem Cidr.memA_of_ge32 {c : Cidr} (h : 32 ≤ c.len) {a : Nat} :
    c.memA a = true ↔ a = c.net := by
  have hz : 32 - c.len = 0 := Nat.sub_eq_zero_of_le h
  simp [Cidr.memA, Cidr.size, hz]

theorem half_mem {c : Cidr} {a : Nat} :
    c.memA a = true ↔ ((half0 c).memA a = true ∨ (half1 c).memA a = true) := by
  rcases Nat.lt_or_ge c.len 32 with h | h
  · have hsize : c.size = 2 ^ (31 - c.len) * 2 := by
      rw [Cidr.size, ← pow_succ]
      congr 1
      omega
    have hσ0 : (half0 c).size = 2 ^ (31 - c.len) := by
      show 2 ^ (32 - (c.len + 1)) = 2 ^ (31 - c.len)
      congr 1
      omega
    have hσ1 : (half1 c).size = 2 ^ (31 - c.len) := by
      show 2 ^ (32 - (c.len + 1)) = 2 ^ (31 - c.len)
      congr 1
      omega
    have hspos : 0 < 2 ^ (31 - c.len) := by positivity
    have hdvd : 2 ^ (31 - c.len) ∣ c.first := by
      refine ⟨c.net / c.size * 2, ?_⟩
      rw [Cidr.first, hsize]
      ring
    have hf0 : (half0 c).first = c.first := by
      rw [Cidr.first, hσ0]
      exact Nat.div_mul_cancel hdvd
    have hf1 : (half1 c).first = c.first + 2 ^ (31 - c.len) := by
      have hnet1 : (half1 c).net = c.first + 2 ^ (31 - c.len) := by
        show c.first + c.size / 2 = c.first + 2 ^ (31 - c.len)
        rw [hsize, Nat.mul_div_cancel _ (by norm_num)]
      rw [Cidr.first, hσ1, hnet1]
      exact Nat.div_mul_cancel (Dvd.dvd.add hdvd dvd_rfl)
    rw [Cidr.memA_iff, Cidr.memA_iff, Cidr.memA_iff, hf0, hf1, hσ0, hσ1, hsize]
    omega
  · have h1 : 32 ≤ c.len + 1 := by omega
    have hz : 32 - c.len = 0 := Nat.sub_eq_zero_of_le h
    have hfirst : c.first = c.net := by
      simp [Cidr.first, Cidr.size, hz]
    have hnet1 : (half1 c).net = c.net := by
      show c.first + c.size / 2 = c.net
      simp [hfirst, Cidr.size, hz]
    rw [Cidr.memA_of_ge32 h, @Cidr.memA_of_ge32 (half0 c) h1 a,
      @Cidr.memA_of_ge32 (half1 c) h1 a]
    show a = c.net ↔ a = c.first ∨ a = (half1 c).net
    rw [hfirst, hnet1]
    tauto

/-! ## Semantics of the `IPSet` operations -/

theorem addrIn_append {s t : IPSet} {a : Nat} :
    addrIn (s ++ t) a = (addrIn s a || addrIn t a) := by
  simp [addrIn, List.any_append]

theorem addrIn_iff {s : IPSet} {a : Nat} :
    addrIn s a = true ↔ ∃ c ∈ s, c.memA a = true := by
  simp [addrIn, List.any_eq_true]

theorem coveredByF_zero (s : IPSet) (c : Cidr) :
    coveredByF s 0 c =
      (if s.any (fun e => subBlock c e) then true
       else if !(s.any (fun e => overlapB c e)) then false
       else false) := rfl

theorem coveredByF_succ (s : IPSet) (fuel : Nat) (c : Cidr) :
    coveredByF s (fuel + 1) c =
      (if s.any (fun e => subBlock c e) then true
       else if !(s.any (fun e => overlapB c e)) then false
       else coveredByF s fuel (half0 c) && coveredByF s fuel (half1 c)) := rfl

theorem any_sub_subset {s : IPSet} {c : Cidr}
    (h1 : s.any (fun e => subBlock c e) = true) :
    ∀ a, c.memA a = true → addrIn s a = true := by
  intro a ha
  obtain ⟨e, he, hsub⟩ := List.any_eq_true.mp h1
  exact addrIn_iff.mpr ⟨e, he, subBlock_mem hsub ha⟩

theorem no_overlap_not_subset {s : IPSet} {c : Cidr}
    (h2 : s.any (fun e => overlapB c e) = false) :
    ¬(∀ a, c.memA a = true → addrIn s a = true) := by
  intro h
  obtain ⟨e, he, hm⟩ := addrIn_iff.mp (h c.net (Cidr.memA_self c))
  have hov : s.any (fun e => overlapB c e) = true :=
    List.any_eq_true.mpr ⟨e, he, overlap_of_mem (Cidr.memA_self c) hm⟩
  rw [hov] at h2
  cases h2

theorem no_overlap_not_mem {s : IPSet} {c : Cidr} {a : Nat}
    (h2 : s.any (fun e => overlapB c e) = false) (ha : c.memA a = true) :
    addrIn s a = false := by
  cases hmem : addrIn s a with
  | false => rfl
  | true =>
    obtain ⟨e, he, hm⟩ := addrIn_iff.mp hmem
    have hov : s.any (fun e => overlapB c e) = true :=
      List.any_eq_true.mpr ⟨e, he, overlap_of_mem ha hm⟩
    rw [hov] at h2
    cases h2

theorem singleton_not_subset {s : IPSet} (hs : ∀ e ∈ s, e.len ≤ 32) {c : Cidr}
    (h32 : 32 ≤ c.len) (h1 : s.any (fun e => subBlock c e) = false) :
    ¬(∀ a, c.memA a = true → addrIn s a = true) := by
  intro h
  obtain ⟨e, he, hme⟩ := addrIn_iff.mp (h c.net (Cidr.memA_self c))
  have hsub : subBlock c e = true := by
    simp only [subBlock, Bool.and_eq_true, decide_eq_true_eq]
    exact ⟨Nat.le_trans (hs e he) h32, hme⟩
  have : s.any (fun e => subBlock c e) = true := List.any_eq_true.mpr ⟨e, he, hsub⟩
  rw [this] at h1
  cases h1

theorem rhs_halves {s : IPSet} {c : Cidr} :
    (∀ a, c.memA a = true → addrIn s a = true) ↔
      ((∀ a, (half0 c).memA a = true → addrIn s a = true) ∧
       (∀ a, (half1 c).memA a = true → addrIn s a = true)) := by
  constructor
  · intro h
    exact ⟨fun a ha => h a (half_mem.mpr (Or.inl ha)),
      fun a ha => h a (half_mem.mpr (Or.inr ha))⟩
  · intro h a ha
    rcases half_mem.mp ha with h0 | h1
    · exact h.1 a h0
    · exact h.2 a h1

theorem coveredByF_of_any_sub {s : IPSet} {fuel : Nat} {c : Cidr}
    (h : s.any (fun e => subBlock c e) = true) : coveredByF s fuel c = true := by
  cases fuel with
  | zero => rw [coveredByF_zero, if_pos h]
  | succ n => rw [coveredByF_succ, if_pos h]

theorem coveredByF_of_no_overlap {s : IPSet} {fuel : Nat} {c : Cidr}
    (hsub : s.any (fun e => subBlock c e) = false)
    (hov : s.any (fun e => overlapB c e) = false) : coveredByF s fuel c = false := by
  cases fuel with
  | zero => rw [coveredByF_zero, if_neg (by simp [hsub]), if_pos (by simp [hov])]
  | succ n => rw [coveredByF_succ, if_neg (by simp [hsub]), if_pos (by simp [hov])]

theorem coveredByF_zero_split {s : IPSet} {c : Cidr}
    (hsub : s.any (fun e => subBlock c e) = false)
    (hov : s.any (fun e => overlapB c e) = true) : coveredByF s 0 c = false := by
  rw [coveredByF_zero, if_neg (by simp [hsub]), if_neg (by simp [hov])]

theorem coveredByF_succ_split {s : IPSet} {fuel : Nat} {c : Cidr}
    (hsub : s.any (fun e => subBlock c e) = false)
    (hov : s.any (fun e => overlapB c e) = true) :
    coveredByF s (fuel + 1) c =
      (coveredByF s fuel (half0 c) && coveredByF s fuel (half1 c)) := by
  rw [coveredByF_succ, if_neg (by simp [hsub]), if_neg (by simp [hov])]

theorem coveredByF_iff {s : IPSet} (hs : ∀ e ∈ s, e.len ≤ 32) :
    ∀ fuel c, 32 ≤ fuel + c.len →
      (coveredByF s fuel c = true ↔ ∀ a, c.memA a = true → addrIn s a = true) := by
  intro fuel
  induction fuel with
  | zero =>
    intro c hfuel
    by_cases hsub : s.any (fun e => subBlock c e) = true
    · rw [coveredByF_of_any_sub hsub]
      simpa using any_sub_subset hsub
    · have hsub' := Bool.eq_false_iff.mpr hsub
      by_cases hov : s.any (fun e => overlapB c e) = true
      · rw [coveredByF_zero_split hsub' hov]
        simpa using singleton_not_subset hs (by omega) hsub'
      · rw [coveredByF_of_no_overlap hsub' (Bool.eq_false_iff.mpr hov)]
        simpa using no_overlap_not_subset (Bool.eq_false_iff.mpr hov)
  | succ fuel ih =>
    intro c hfuel
    by_cases hsub : s.any (fun e => subBlock c e) = true
    · rw [coveredByF_of_any_sub hsub]
      simpa using any_sub_subset hsub
    · have hsub' := Bool.eq_false_iff.mpr hsub
      by_cases hov : s.any (fun e => overlapB c e) = true
      · rw [coveredByF_succ_split hsub' hov]
        have i0 := ih (half0 c) (by simp only [half0]; omega)
        have i1 := ih (half1 c) (by simp only [half1]; omega)
        rw [Bool.and_eq_true, i0, i1]
        exact rhs_halves.symm
      · rw [coveredByF_of_no_overlap hsub' (Bool.eq_false_iff.mpr hov)]
        simpa using no_overlap_not_subset (Bool.eq_false_iff.mpr hov)

theorem coveredBy_iff {c : Cidr} {s : IPSet} (hs : ∀ e ∈ s, e.len ≤ 32) :
    coveredBy c s = true ↔ ∀ a, c.memA a = true → addrIn s a = true :=
  coveredByF_iff hs (32 - c.len) c (by omega)

theorem coveredBy_of_any_sub {c : Cidr} {s : IPSet}
    (h : s.any (fun e => subBlock c e) = true) : coveredBy c s = true :=
  coveredByF_of_any_sub h

theorem blockDiffF_zero (t : IPSet) (c : Cidr) :
    blockDiffF t 0 c =
      (if coveredBy c t then []
       else if !(t.any (fun e => overlapB c e)) then [c]
       else [c]) := rfl

theorem blockDiffF_succ (t : IPSet) (fuel : Nat) (c : Cidr) :
    blockDiffF t (fuel + 1) c =
      (if coveredBy c t then []
       else if !(t.any (fun e => overlapB c e)) then [c]
       else blockDiffF t fuel (half0 c) ++ blockDiffF t fuel (half1 c)) := rfl

theorem addrIn_single {c : Cidr} {a : Nat} : addrIn [c] a = c.memA a := by
  simp [addrIn]

theorem blockDiffF_mem {t : IPSet} (ht : ∀ e ∈ t, e.len ≤ 32) :
    ∀ fuel c a, 32 ≤ fuel + c.len →
      (addrIn (blockDiffF t fuel c) a = true ↔ c.memA a = true ∧ addrIn t a = false) := by
  intro fuel
  induction fuel with
  | zero =>
    intro c a hfuel
    rw [blockDiffF_zero]
    by_cases hcov : coveredBy c t = true
    · rw [if_pos hcov]
      constructor
      · intro h
        simp [addrIn] at h
      · intro ⟨h1, h2⟩
        rw [(coveredBy_iff ht).mp hcov a h1] at h2
        cases h2
    · rw [if_neg hcov]
      have hcov' := Bool.eq_false_iff.mpr hcov
      by_cases hov : t.any (fun e => overlapB c e) = true
      · rw [if_neg (by simp [hov]), addrIn_single]
        have h32 : 32 ≤ c.len := by omega
        have hnot : ¬ ∀ b, c.memA b = true → addrIn t b = true :=
          fun hh => hcov ((coveredBy_iff ht).mpr hh)
        push_neg at hnot
        obtain ⟨a0, ha0, hna0⟩ := hnot
        have ha0' : a0 = c.net := (Cidr.memA_of_ge32 h32).mp ha0
        constructor
        · intro h
          refine ⟨h, ?_⟩
          have : a = c.net := (Cidr.memA_of_ge32 h32).mp h
          rw [this, ← ha0']
          simpa using hna0
        · intro h
          exact h.1
      · have hov' := Bool.eq_false_iff.mpr hov
        rw [if_pos (by simp [hov']), addrIn_single]
        constructor
        · intro h
          exact ⟨h, no_overlap_not_mem hov' h⟩
        · intro h
          exact h.1
  | succ fuel ih =>
    intro c a hfuel
    rw [blockDiffF_succ]
    by_cases hcov : coveredBy c t = true
    · rw [if_pos hcov]
      constructor
      · intro h
        simp [addrIn] at h
      · intro ⟨h1, h2⟩
        rw [(coveredBy_iff ht).mp hcov a h1] at h2
        cases h2
    · rw [if_neg hcov]
      by_cases hov : t.any (fun e => overlapB c e) = true
      · rw [if_neg (by simp [hov]), addrIn_append]
        have i0 := ih (half0 c) a (by simp only [half0]; omega)
        have i1 := ih (half1 c) a (by simp only [half1]; omega)
        rw [Bool.or_eq_true, i0, i1]
        constructor
        · rintro (⟨h1, h2⟩ | ⟨h1, h2⟩)
          · exact ⟨half_mem.mpr (Or.inl h1), h2⟩
          · exact ⟨half_mem.mpr (Or.inr h1), h2⟩
        · rintro ⟨h1, h2⟩
          rcases half_mem.mp h1 with h | h
          · exact Or.inl ⟨h, h2⟩
          · exact Or.inr ⟨h, h2⟩
      · have hov' := Bool.eq_false_iff.mpr hov
        rw [if_pos (by simp [hov']), addrIn_single]
        constructor
        · intro h
          exact ⟨h, no_overlap_not_mem hov' h⟩
        · intro h
          exact h.1

theorem ipDiff_mem {s t : IPSet} (ht : ∀ e ∈ t, e.len ≤ 32) {a : Nat} :
    addrIn (ipDiff s t) a = true ↔ addrIn s a = true ∧ addrIn t a = false := by
  unfold ipDiff
  constructor
  · intro h
    obtain ⟨e, he, hm⟩ := addrIn_iff.mp h
    obtain ⟨c, hc, he2⟩ := List.mem_flatMap.mp he
    have := (blockDiffF_mem ht (32 - c.len) c a (by omega)).mp (addrIn_iff.mpr ⟨e, he2, hm⟩)
    exact ⟨addrIn_iff.mpr ⟨c, hc, this.1⟩, this.2⟩
  · intro ⟨h1, h2⟩
    obtain ⟨c, hc, hm⟩ := addrIn_iff.mp h1
    have := (blockDiffF_mem ht (32 - c.len) c a (by omega)).mpr ⟨hm, h2⟩
    obtain ⟨e, he, hme⟩ := addrIn_iff.mp this
    exact addrIn_iff.mpr ⟨e, List.mem_flatMap.mpr ⟨c, hc, he⟩, hme⟩

theorem blockEntriesF_zero (s : IPSet) (c : Cidr) :
    blockEntriesF s 0 c =
      (if coveredBy c s then [c]
       else if !(s.any (fun e => overlapB c e)) then []
       else []) := rfl

theorem blockEntriesF_succ (s : IPSet) (fuel : Nat) (c : Cidr) :
    blockEntriesF s (fuel + 1) c =
      (if coveredBy c s then [c]
       else if !(s.any (fun e => overlapB c e)) then []
       else blockEntriesF s fuel (half0 c) ++ blockEntriesF s fuel (half1 c)) := rfl

theorem blockEntriesF_mem {s : IPSet} (hs : ∀ e ∈ s, e.len ≤ 32) :
    ∀ fuel c a, 32 ≤ fuel + c.len →
      (addrIn (blockEntriesF s fuel c) a = true ↔ c.memA a = true ∧ addrIn s a = true) := by
  intro fuel
  induction fuel with
  | zero =>
    intro c a hfuel
    rw [blockEntriesF_zero]
    by_cases hcov : coveredBy c s = true
    · rw [if_pos hcov, addrIn_single]
      exact ⟨fun h => ⟨h, (coveredBy_iff hs).mp hcov a h⟩, fun h => h.1⟩
    · rw [if_neg hcov]
      have hcov' := Bool.eq_false_iff.mpr hcov
      by_cases hov : s.any (fun e => overlapB c e) = true
      · rw [if_neg (by simp [hov])]
        have h32 : 32 ≤ c.len := by omega
        have hnot : ¬ ∀ b, c.memA b = true → addrIn s b = true :=
          fun hh => hcov ((coveredBy_iff hs).mpr hh)
        push_neg at hnot
        obtain ⟨a0, ha0, hna0⟩ := hnot
        have ha0' : a0 = c.net := (Cidr.memA_of_ge32 h32).mp ha0
        constructor
        · intro h
          simp [addrIn] at h
        · intro ⟨h1, h2⟩
          exfalso
          apply hna0
          rw [ha0', ← (Cidr.memA_of_ge32 h32).mp h1]
          exact h2
      · have hov' := Bool.eq_false_iff.mpr hov
        rw [if_pos (by simp [hov'])]
        constructor
        · intro h
          simp [addrIn] at h
        · intro ⟨h1, h2⟩
          rw [no_overlap_not_mem hov' h1] at h2
          cases h2
  | succ fuel ih =>
    intro c a hfuel
    rw [blockEntriesF_succ]
    by_cases hcov : coveredBy c s = true
    · rw [if_pos hcov, addrIn_single]
      exact ⟨fun h => ⟨h, (coveredBy_iff hs).mp hcov a h⟩, fun h => h.1⟩
    · rw [if_neg hcov]
      by_cases hov : s.any (fun e => overlapB c e) = true
      · rw [if_neg (by simp [hov]), addrIn_append]
        have i0 := ih (half0 c) a (by simp only [half0]; omega)
        have i1 := ih (half1 c) a (by simp only [half1]; omega)
        rw [Bool.or_eq_true, i0, i1]
        constructor
        · rintro (⟨h1, h2⟩ | ⟨h1, h2⟩)
          · exact ⟨half_mem.mpr (Or.inl h1), h2⟩
          · exact ⟨half_mem.mpr (Or.inr h1), h2⟩
        · rintro ⟨h1, h2⟩
          rcases half_mem.mp h1 with h | h
          · exact Or.inl ⟨h, h2⟩
          · exact Or.inr ⟨h, h2⟩
      · have hov' := Bool.eq_false_iff.mpr hov
        rw [if_pos (by simp [hov'])]
        constructor
        · intro h
          simp [addrIn] at h
        · intro ⟨h1, h2⟩
          rw [no_overlap_not_mem hov' h1] at h2
          cases h2

/-- The root block `0/0` contains exactly the 32-bit addresses. -/
theorem root_mem {a : Nat} : (Cidr.mk 0 0).memA a = true ↔ a < 2 ^ 32 := by
  simp only [Cidr.memA, Cidr.size, beq_iff_eq, Nat.zero_sub, Nat.zero_div, Nat.div_zero]
  norm_num
  omega

theorem iterCidrs_mem {s : IPSet} (hs : ∀ e ∈ s, e.len ≤ 32) {a : Nat} :
    addrIn (iterCidrs s) a = true ↔ a < 2 ^ 32 ∧ addrIn s a = true := by
  unfold iterCidrs
  rw [blockEntriesF_mem hs 32 ⟨0, 0⟩ a (by omega), root_mem]

/-! ## Prefix-length bounds of the produced entry lists -/

theorem blockEntriesF_le (s : IPSet) :
    ∀ fuel c e, e ∈ blockEntriesF s fuel c → e.len ≤ fuel + c.len := by
  intro fuel
  induction fuel with
  | zero =>
    intro c e he
    rw [blockEntriesF_zero] at he
    split_ifs at he with h1 h2
    · rw [List.mem_singleton] at he
      subst he
      omega
    · cases he
    · cases he
  | succ fuel ih =>
    intro c e he
    rw [blockEntriesF_succ] at he
    split_ifs at he with h1 h2
    · rw [List.mem_singleton] at he
      subst he
      omega
    · cases he
    · rcases List.mem_append.mp he with h | h
      · have := ih (half0 c) e h
        have hl : (half0 c).len = c.len + 1 := rfl
        omega
      · have := ih (half1 c) e h
        have hl : (half1 c).len = c.len + 1 := rfl
        omega

theorem blockDiffF_le (t : IPSet) :
    ∀ fuel c e, e ∈ blockDiffF t fuel c → e.len ≤ fuel + c.len := by
  intro fuel
  induction fuel with
  | zero =>
    intro c e he
    rw [blockDiffF_zero] at he
    split_ifs at he with h1 h2
    · cases he
    · rw [List.mem_singleton] at he
      subst he
      omega
    · rw [List.mem_singleton] at he
      subst he
      omega
  | succ fuel ih =>
    intro c e he
    rw [blockDiffF_succ] at he
    split_ifs at he with h1 h2
    · cases he
    · rw [List.mem_singleton] at he
      subst he
      omega
    · rcases List.mem_append.mp he with h | h
      · have := ih (half0 c) e h
        have hl : (half0 c).len = c.len + 1 := rfl
        omega
      · have := ih (half1 c) e h
        have hl : (half1 c).len = c.len + 1 := rfl
        omega

theorem iterCidrs_le32 (s : IPSet) : ∀ e ∈ iterCidrs s, e.len ≤ 32 := by
  intro e he
  have h := blockEntriesF_le s 32 ⟨0, 0⟩ e he
  have h0 : (Cidr.mk 0 0).len = 0 := rfl
  omega

theorem ipDiff_le32 {s t : IPSet} (hs : ∀ e ∈ s, e.len ≤ 32) :
    ∀ e ∈ ipDiff s t, e.len ≤ 32 := by
  intro e he
  obtain ⟨c, hc, he2⟩ := List.mem_flatMap.mp he
  have h1 := blockDiffF_le t (32 - c.len) c e he2
  have h2 := hs c hc
  omega

theorem overlap31_covered {s : IPSet} (hs31 : ∀ e ∈ s, e.len ≤ 31) {c : Cidr}
    (hc : 31 ≤ c.len) (hov : s.any (fun e => overlapB c e) = true) :
    coveredBy c s = true := by
  obtain ⟨e, he, h⟩ := List.any_eq_true.mp hov
  exact coveredBy_of_any_sub
    (List.any_eq_true.mpr ⟨e, he, subBlock_of_overlap_le (Nat.le_trans (hs31 e he) hc) h⟩)

theorem blockEntriesF_le31 {s : IPSet} (hs31 : ∀ e ∈ s, e.len ≤ 31) :
    ∀ fuel c, c.len ≤ 31 → ∀ e ∈ blockEntriesF s fuel c, e.len ≤ 31 := by
  intro fuel
  induction fuel with
  | zero =>
    intro c hc e he
    rw [blockEntriesF_zero] at he
    split_ifs at he with h1 h2
    · rw [List.mem_singleton] at he
      subst he
      exact hc
    · cases he
    · cases he
  | succ fuel ih =>
    intro c hc e he
    rw [blockEntriesF_succ] at he
    split_ifs at he with h1 h2
    · rw [List.mem_singleton] at he
      subst he
      exact hc
    · cases he
    · have hov : s.any (fun e => overlapB c e) = true := by
        cases hx : s.any (fun e => overlapB c e)
        · rw [hx] at h2
          simp at h2
        · rfl
      rcases Nat.lt_or_ge c.len 31 with hlt | hge
      · rcases List.mem_append.mp he with h | h
        · exact ih (half0 c) (by show c.len + 1 ≤ 31; omega) e h
        · exact ih (half1 c) (by show c.len + 1 ≤ 31; omega) e h
      · exact absurd (overlap31_covered hs31 hge hov) h1

theorem blockDiffF_le31 {t : IPSet} (ht31 : ∀ e ∈ t, e.len ≤ 31) :
    ∀ fuel c, c.len ≤ 31 → ∀ e ∈ blockDiffF t fuel c, e.len ≤ 31 := by
  intro fuel
  induction fuel with
  | zero =>
    intro c hc e he
    rw [blockDiffF_zero] at he
    split_ifs at he with h1 h2
    · cases he
    · rw [List.mem_singleton] at he
      subst he
      exact hc
    · rw [List.mem_singleton] at he
      subst he
      exact hc
  | succ fuel ih =>
    intro c hc e he
    rw [blockDiffF_succ] at he
    split_ifs at he with h1 h2
    · cases he
    · rw [List.mem_singleton] at he
      subst he
      exact hc
    · have hov : t.any (fun e => overlapB c e) = true := by
        cases hx : t.any (fun e => overlapB c e)
        · rw [hx] at h2
          simp at h2
        · rfl
      rcases Nat.lt_or_ge c.len 31 with hlt | hge
      · rcases List.mem_append.mp he with h | h
        · exact ih (half0 c) (by show c.len + 1 ≤ 31; omega) e h
        · exact ih (half1 c) (by show c.len + 1 ≤ 31; omega) e h
      · exact absurd (overlap31_covered ht31 hge hov) h1

theorem iterCidrs_le31 {s : IPSet} (hs31 : ∀ e ∈ s, e.len ≤ 31) :
    ∀ e ∈ iterCidrs s, e.len ≤ 31 :=
  blockEntriesF_le31 hs31 32 ⟨0, 0⟩ (by decide)

theorem ipDiff_le31 {s t : IPSet} (hs31 : ∀ e ∈ s, e.len ≤ 31)
    (ht31 : ∀ e ∈ t, e.len ≤ 31) : ∀ e ∈ ipDiff s t, e.len ≤ 31 := by
  intro e he
  obtain ⟨c, hc, he2⟩ := List.mem_flatMap.mp he
  exact blockDiffF_le31 ht31 (32 - c.len) c (hs31 c hc) e he2

theorem append_le31 {s t : IPSet} (hs : ∀ e ∈ s, e.len ≤ 31)
    (ht : ∀ e ∈ t, e.len ≤ 31) : ∀ e ∈ s ++ t, e.len ≤ 31 := by
  intro e he
  rcases List.mem_append.mp he with h | h
  · exact hs e h
  · exact ht e h

/-- `ipDisjoint` is sound for the address-set semantics. -/
theorem ipDisjoint_sem {s t : IPSet} (h : ipDisjoint s t = true) :
    ∀ a, ¬(addrIn s a = true ∧ addrIn t a = true) := by
  intro a hboth
  obtain ⟨h1, h2⟩ := hboth
  obtain ⟨c, hc, hmc⟩ := addrIn_iff.mp h1
  obtain ⟨d, hd, hmd⟩ := addrIn_iff.mp h2
  have hov := overlap_of_mem hmc hmd
  simp only [ipDisjoint, List.all_eq_true] at h
  have h3 := h c hc d hd
  rw [hov] at h3
  cases h3

/-! ## Classifier lemmas -/

theorem classifyStep_false {pa : IPSet} {p c : IPSet} {rt : RawRoute} :
    classifyStep pa false (p, c) rt = some (p, c) ∨
    classifyStep pa false (p, c) rt = some (p ++ [rt.dest], c) := by
  unfold classifyStep
  by_cases h : 32 ≤ rt.dest.len
  · left
    rw [if_pos h]
  · right
    rw [if_neg h, if_neg (by simp)]

theorem classify_false_carved {pa : IPSet} :
    ∀ (routes : List RawRoute) (p c : IPSet) (res : IPSet × IPSet),
      routes.foldlM (fun acc rt => classifyStep pa false acc rt) (p, c) = some res →
      res.2 = c := by
  intro routes
  induction routes with
  | nil =>
    intro p c res h
    rw [List.foldlM_nil] at h
    injection h with h2
    rw [← h2]
  | cons rt rest ih =>
    intro p c res h
    rw [List.foldlM_cons] at h
    rcases @classifyStep_false pa p c rt with hs | hs
    · rw [hs] at h
      exact ih p c res h
    · rw [hs] at h
      exact ih _ c res h

theorem classifyStep_cases (pa : IPSet) (pi : Bool) (p c : IPSet) (rt : RawRoute) :
    classifyStep pa pi (p, c) rt = some (p, c) ∨
    classifyStep pa pi (p, c) rt = none ∨
    (rt.dest.len < 32 ∧ pi = true ∧ coveredBy rt.dest pa = true ∧
      classifyStep pa pi (p, c) rt = some (p, c ++ [rt.dest])) ∨
    (rt.dest.len < 32 ∧ (pi && coveredBy rt.dest pa) = false ∧
      classifyStep pa pi (p, c) rt = some (p ++ [rt.dest], c)) := by
  unfold classifyStep
  by_cases h32 : 32 ≤ rt.dest.len
  · left
    rw [if_pos h32]
  · rw [if_neg h32]
    cases hpc : (pi && coveredBy rt.dest pa) with
    | false =>
      right; right; right
      exact ⟨by omega, rfl, by rw [if_neg (by simp)]⟩
    | true =>
      rw [if_pos rfl]
      rw [Bool.and_eq_true] at hpc
      cases hm : aspathMatch rt.aspath with
      | none =>
        left
        simp only [hm]
      | some g =>
        simp only [hm]
        cases hs : pySplit g with
        | nil =>
          right; left
          simp only [hs]
        | cons tok toks =>
          simp only [hs]
          by_cases ht : tok = ['I'] ∨ tok = ['?']
          · left
            rw [if_pos (by rcases ht with h | h <;> simp [h])]
          · right; right; left
            push_neg at ht
            exact ⟨by omega, hpc.1, hpc.2,
              by rw [if_neg (by simp [ht.1, ht.2])]⟩

theorem classify_true_inv {pa : IPSet} :
    ∀ (routes : List RawRoute) (p c : IPSet),
      (∀ rt ∈ routes, coveredBy rt.dest pa = true ∨
        pa.any (fun e => overlapB rt.dest e) = false) →
      (∀ e ∈ p, pa.any (fun x => overlapB e x) = false) →
      (∀ e ∈ c, coveredBy e pa = true) →
      ∀ res, routes.foldlM (fun acc rt => classifyStep pa true acc rt) (p, c) = some res →
        (∀ e ∈ res.1, pa.any (fun x => overlapB e x) = false) ∧
        (∀ e ∈ res.2, coveredBy e pa = true) := by
  intro routes
  induction routes with
  | nil =>
    intro p c _ hp hc res h
    rw [List.foldlM_nil] at h
    injection h with h2
    rw [← h2]
    exact ⟨hp, hc⟩
  | cons rt rest ih =>
    intro p c hr hp hc res h
    have hr1 := hr rt (List.mem_cons_self rt rest)
    have hrrest : ∀ r ∈ rest, coveredBy r.dest pa = true ∨
        pa.any (fun e => overlapB r.dest e) = false :=
      fun r hr2 => hr r (List.mem_cons_of_mem _ hr2)
    rw [List.foldlM_cons] at h
    rcases classifyStep_cases pa true p c rt with hs | hs | ⟨_, _, hcov, hs⟩ | ⟨_, hcond, hs⟩
    · rw [hs] at h
      exact ih p c hrrest hp hc res h
    · rw [hs] at h
      cases h
    · rw [hs] at h
      refine ih p (c ++ [rt.dest]) hrrest hp ?_ res h
      intro e he
      rcases List.mem_append.mp he with h2 | h2
      · exact hc e h2
      · rw [List.mem_singleton] at h2
        rw [h2]
        exact hcov
    · rw [hs] at h
      refine ih (p ++ [rt.dest]) c hrrest ?_ hc res h
      intro e he
      rcases List.mem_append.mp he with h2 | h2
      · exact hp e h2
      · rw [List.mem_singleton] at h2
        rw [Bool.true_and] at hcond
        rcases hr1 with hcv | hdis
        · rw [hcv] at hcond
          cases hcond
        · rw [h2]
          exact hdis

theorem get_routes_some {world : World} {host : String} {communities : List String}
    {pa : IPSet} {pi : Bool} {own carved : IPSet} {logs : List String}
    (h : get_routes world host communities pa pi = (some own, some carved, logs)) :
    ∃ routes, world host communities = some routes ∧
      routes.foldlM (fun acc rt => classifyStep pa pi acc rt) ([], []) = some (own, carved) := by
  unfold get_routes at h
  cases hw : world host communities with
  | none =>
    simp only [hw] at h
    simp at h
  | some routes =>
    simp only [hw] at h
    by_cases he : routes.isEmpty
    · rw [if_pos he] at h
      simp at h
    · rw [if_neg he] at h
      refine ⟨routes, rfl, ?_⟩
      cases hf : routes.foldlM (fun acc rt => classifyStep pa pi acc rt) ([], []) with
      | none =>
        simp only [hf] at h
        simp at h
      | some pc =>
        obtain ⟨p2, c2⟩ := pc
        simp only [hf] at h
        simp only [Prod.mk.injEq, Option.some.injEq] at h
        rw [h.1, h.2.1]

/-- Claim C10: invoked with `piSpace=false`, the classifier never reaches the
carved branch, so any returned `carvedSet` is empty; and the defensive carved
fold of the own/small-PI cycle applied to an empty set leaves the city table
unchanged. -/
theorem claim_C10 (world : World) (host : String) (communities : List String)
    (paSpaceSet : IPSet) :
    (∀ own carved logs,
      get_routes world host communities paSpaceSet false = (some own, some carved, logs) →
      carved = []) ∧
    (∀ (cs : CState) (country city : String) (pi cv : Bool),
      process_routes cs [] country city pi cv = cs) := by
  constructor
  · intro own carved logs h
    obtain ⟨routes, _, hf⟩ := get_routes_some h
    exact (classify_false_carved routes [] [] (own, carved) hf).symm ▸ rfl
  · intro cs country city pi cv
    rfl

/-- Claim C10 witness at a concrete classifier input. -/
theorem claim_C10_witness :
    (∀ own carved logs,
      get_routes worldC9 "h" ["x"] paC9 false = (some own, some carved, logs) →
      carved = []) ∧
    (∀ (cs : CState) (country city : String) (pi cv : Bool),
      process_routes cs [] country city pi cv = cs) :=
  claim_C10 worldC9 "h" ["x"] paC9

/-- Claim C3: with `piSpace=true`, a non-host route inside the PA space is
dropped when the extracted origin token is `I` (internal) or `?` (unknown)
and carved when the token is a numeric external ASN; a non-host route not
inside the PA space always goes to the own set. -/
theorem claim_C3 (paSpaceSet : IPSet) (rt : RawRoute) (own carved : IPSet)
    (hlen : rt.dest.len < 32) :
    (coveredBy rt.dest paSpaceSet = true →
      (∀ g tok toks, aspathMatch rt.aspath = some g → pySplit g = tok :: toks →
        (tok = ['I'] ∨ tok = ['?']) →
        classifyStep paSpaceSet true (own, carved) rt = some (own, carved)) ∧
      (∀ g tok toks, aspathMatch rt.aspath = some g → pySplit g = tok :: toks →
        tok ≠ [] → tok.all Char.isDigit = true →
        classifyStep paSpaceSet true (own, carved) rt = some (own, carved ++ [rt.dest]))) ∧
    (coveredBy rt.dest paSpaceSet = false →
      classifyStep paSpaceSet true (own, carved) rt = some (own ++ [rt.dest], carved)) := by
  constructor
  · intro hcov
    constructor
    · intro g tok toks hm hs htok
      unfold classifyStep
      rw [if_neg (by omega), if_pos (by simp [hcov])]
      simp only [hm, hs]
      rw [if_pos (by rcases htok with h | h <;> simp [h])]
    · intro g tok toks hm hs hne hdig
      unfold classifyStep
      rw [if_neg (by omega), if_pos (by simp [hcov])]
      simp only [hm, hs]
      have hne1 : tok ≠ ['I'] := by
        intro hh
        exact absurd (hh ▸ hdig) (by decide)
      have hne2 : tok ≠ ['?'] := by
        intro hh
        exact absurd (hh ▸ hdig) (by decide)
      rw [if_neg (by simp [hne1, hne2])]
  · intro hcov
    unfold classifyStep
    rw [if_neg (by omega), if_neg (by simp [hcov])]

/-- Claim C3 witness: the external-ASN scenario and the internal scenario at
concrete routes, plus a route outside the PA space. -/
theorem claim_C3_witness :
    rtC9b.dest.len < 32 ∧
    ((coveredBy rtC9b.dest paC9 = true →
      (∀ g tok toks, aspathMatch rtC9b.aspath = some g → pySplit g = tok :: toks →
        (tok = ['I'] ∨ tok = ['?']) →
        classifyStep paC9 true ([], []) rtC9b = some ([], [])) ∧
      (∀ g tok toks, aspathMatch rtC9b.aspath = some g → pySplit g = tok :: toks →
        tok ≠ [] → tok.all Char.isDigit = true →
        classifyStep paC9 true ([], []) rtC9b = some ([], [] ++ [rtC9b.dest]))) ∧
    (coveredBy rtC9b.dest paC9 = false →
      classifyStep paC9 true ([], []) rtC9b = some ([] ++ [rtC9b.dest], []))) :=
  ⟨by decide, claim_C3 paC9 rtC9b [] [] (by decide)⟩

/-- Claim C9 counterexample: in PI mode a route partially overlapping the PA
space lands in `ownSet` while a carved route inside the PA space lands in
`carvedSet`; the two returned sets share address 10.0.5.0. -/
theorem claim_C9_counterexample :
    resC9.1.isSome = true ∧ resC9.2.1.isSome = true ∧
    addrIn (resC9.1.getD []) 167773440 = true ∧
    addrIn (resC9.2.1.getD []) 167773440 = true := by
  decide

/-- Claim C9 (amended): the two returned sets are disjoint provided every
queried route range lies either wholly inside or wholly outside the PA
space. -/
theorem claim_C9_amended (world : World) (host : String) (communities : List String)
    (paSpaceSet : IPSet) (piSpace : Bool)
    (hpa32 : ∀ e ∈ paSpaceSet, e.len ≤ 32)
    (hroutes : ∀ routes, world host communities = some routes →
      ∀ rt ∈ routes, coveredBy rt.dest paSpaceSet = true ∨
        paSpaceSet.any (fun e => overlapB rt.dest e) = false)
    (own carved : IPSet) (logs : List String)
    (h : get_routes world host communities paSpaceSet piSpace =
      (some own, some carved, logs)) :
    ∀ a, ¬(addrIn own a = true ∧ addrIn carved a = true) := by
  obtain ⟨routes, hw, hf⟩ := get_routes_some h
  cases piSpace with
  | false =>
    intro a hct
    have hc : carved = [] := classify_false_carved routes [] [] (own, carved) hf
    rw [hc] at hct
    simp [addrIn] at hct
  | true =>
    have hinv := classify_true_inv routes [] [] (hroutes routes hw)
      (by intro e he; cases he) (by intro e he; cases he) (own, carved) hf
    intro a hct
    obtain ⟨h1, h2⟩ := hct
    obtain ⟨e, he, hme⟩ := addrIn_iff.mp h1
    obtain ⟨f, hfm, hmf⟩ := addrIn_iff.mp h2
    have hdis := hinv.1 e he
    have hcov := hinv.2 f hfm
    have hpa : addrIn paSpaceSet a = true := (coveredBy_iff hpa32).mp hcov a hmf
    obtain ⟨g, hg, hmg⟩ := addrIn_iff.mp hpa
    have hov : paSpaceSet.any (fun x => overlapB e x) = true :=
      List.any_eq_true.mpr ⟨g, hg, overlap_of_mem hme hmg⟩
    rw [hov] at hdis
    cases hdis

/-! ## The phase-4 folding rule (claim C2) -/

/-- Claim C2: for a candidate range not contained in the target city's base,
the supernet scan walks the city table in configuration order and stops at
the first city whose base contains the candidate; that city's exclude
receives the candidate, and the target's carvedSpace (when the carved flag
is set) or additions receives it. -/
theorem claim_C2 (pre post : CState) (q : String) (stq : CityState)
    (city : String) (stc : CityState) (piSpace carvedSpace : Bool) (c : Cidr)
    (hget : getCity (pre ++ (q, stq) :: post) city = some stc)
    (hnotbase : coveredBy c stc.base = false)
    (hpre : ∀ p ∈ pre, coveredBy c p.2.base = false)
    (hq : coveredBy c stq.base = true) :
    processOne (pre ++ (q, stq) :: post) city piSpace carvedSpace c =
      (let cs1 := updateCity (pre ++ (q, stq) :: post) q
        (fun s => { s with exclude := s.exclude ++ [c] })
      if carvedSpace then
        updateCity cs1 city (fun s => { s with carvedSpace := s.carvedSpace ++ [c] })
      else
        updateCity cs1 city (fun s => { s with additions := s.additions ++ [c] })) := by
  have hfind : ∀ (pre2 : CState), (∀ p ∈ pre2, coveredBy c p.2.base = false) →
      (pre2 ++ (q, stq) :: post).find? (fun p => coveredBy c p.2.base) = some (q, stq) := by
    intro pre2
    induction pre2 with
    | nil =>
      intro _
      rw [List.nil_append]
      exact List.find?_cons_of_pos _ hq
    | cons x xs ih =>
      intro hp
      rw [List.cons_append]
      rw [List.find?_cons_of_neg _ (by simp [hp x (List.mem_cons_self x xs)])]
      exact ih (fun p hpp => hp p (List.mem_cons_of_mem _ hpp))
  unfold processOne
  simp only [hget]
  rw [if_neg (by simp [hnotbase])]
  simp only [hfind pre hpre]

/-- Claim C2 witness: 10.0.5.0/24 reported by city R is carved out of Q. -/
theorem claim_C2_witness :
    coveredBy blk105s24 [blk10s16] = true ∧
    coveredBy blk105s24 [blk20s24] = false ∧
    processOne csC2 "R" false false blk105s24 =
      updateCity (updateCity csC2 "Q" (fun s => { s with exclude := s.exclude ++ [blk105s24] }))
        "R" (fun s => { s with additions := s.additions ++ [blk105s24] }) :=
  ⟨by decide, by decide,
    claim_C2 [] [("R", { stEmpty with base := [blk20s24] })] "Q"
      { stEmpty with base := [blk10s16] } "R" { stEmpty with base := [blk20s24] }
      false false blk105s24 (by decide) (by decide)
      (by intro p hp; cases hp) (by decide)⟩

/-! ## Override propagation (claim C7) -/

/-- Claim C7 (amended): the per-region removal of phase 7 removes an
override range from another region's set exactly when the range is contained
in that set, and the removal is subnet-aware — a strict subset of an entry is
carved out of it.  Only ranges not wholly contained (strict supersets of the
holdings, partial overlaps) remove nothing. -/
theorem claim_C7_amended (s : IPSet) (c : Cidr) (hs : ∀ e ∈ s, e.len ≤ 32)
    (hc : c.len ≤ 32) :
    (coveredBy c s = true →
      ∀ a, addrIn (overrideRemove s c) a = (addrIn s a && !(c.memA a))) ∧
    (coveredBy c s = false → overrideRemove s c = s) := by
  have ht : ∀ e ∈ ([c] : IPSet), e.len ≤ 32 := by
    intro e he
    rw [List.mem_singleton] at he
    rw [he]
    exact hc
  constructor
  · intro hcov a
    unfold overrideRemove
    rw [if_pos hcov]
    have h1 := @ipDiff_mem s [c] ht a
    cases hx : addrIn (ipDiff s [c]) a with
    | true =>
      obtain ⟨hsa, hca⟩ := h1.mp hx
      rw [addrIn_single] at hca
      rw [hsa, hca]
      rfl
    | false =>
      cases hsa : addrIn s a with
      | false => rfl
      | true =>
        cases hma : c.memA a with
        | true => rfl
        | false =>
          exfalso
          have h2 := h1.mpr ⟨hsa, by rw [addrIn_single, hma]⟩
          rw [hx] at h2
          cases h2
  · intro hcov
    unfold overrideRemove
    rw [if_neg (by simp [hcov])]

/-- Claim C7 counterexample: A's override 10.0.5.0/24 is a strict subset of
B's single entry 10.0.0.0/16 — not an exact match — yet phase 7 removes it
from B's base (splitting the entry): address 10.0.5.0 is gone afterwards
while 10.0.6.0 stays. -/
theorem claim_C7_counterexample :
    (getCity (phase7 csC7) "B").isSome = true ∧
    ((getCity (phase7 csC7) "B").map (fun st => addrIn st.base 167773440)).getD true = false ∧
    ((getCity (phase7 csC7) "B").map (fun st => addrIn st.base 167773696)).getD false = true ∧
    blk105s24 ∉ ([blk10s16] : IPSet) := by
  refine ⟨by decide, by decide, by decide, by decide⟩

/-- Claim C7 amended witness at a concrete pair. -/
theorem claim_C7_amended_witness :
    (∀ e ∈ ([blk10s16] : IPSet), e.len ≤ 32) ∧ blk105s24.len ≤ 32 ∧
    ((coveredBy blk105s24 [blk10s16] = true →
      ∀ a, addrIn (overrideRemove [blk10s16] blk105s24) a =
        (addrIn [blk10s16] a && !(blk105s24.memA a))) ∧
    (coveredBy blk105s24 [blk10s16] = false →
      overrideRemove [blk10s16] blk105s24 = [blk10s16])) :=
  ⟨by decide, by decide, claim_C7_amended [blk10s16] blk105s24 (by decide) (by decide)⟩

/-! ## Phase-1 validation and exit status (claims C4, C5) -/

/-- Claim C5 (code bug): on a phase-1 overlap the run aborts via
`sys.exit()` with no argument — `SystemExit None` — so the process exit
status is 0, not non-zero; without an overlap it is also 0. -/
theorem claim_C5 :
    (runCli cfgOverlap worldNone).aborted = true ∧
    (runCli cfgOverlap worldNone).exitCode = 0 ∧
    (runCli cfgDisjoint worldNone).aborted = false ∧
    (runCli cfgDisjoint worldNone).exitCode = 0 := by
  refine ⟨by decide, by decide, by decide, by decide⟩

/-- Entry characterization of the initialized city table. -/
theorem initCities_mem {l : List CityCfg} {p : String × CityState}
    (hp : p ∈ initCities l) :
    ∃ cc ∈ l, p.1 = cc.name ∧ p.2.base = cc.cidrs ∧ p.2.override = cc.override ∧
      p.2.additions = [] ∧ p.2.exclude = [] ∧ p.2.community = cc.community ∧
      p.2.device = cc.device := by
  obtain ⟨cc, hcc, heq⟩ := List.mem_map.mp hp
  subst heq
  exact ⟨cc, hcc, rfl, rfl, rfl, rfl, rfl, rfl, rfl⟩

theorem wf_len {c : Cidr} (h : c.wf = true) : c.len ≤ 32 := by
  simp only [Cidr.wf, Bool.and_eq_true, decide_eq_true_eq] at h
  exact h.1

/-- Base entries of an initialized city are well formed. -/
theorem cfgWf_base {cfg : Config} (hwf : cfgWf cfg = true) {p : String × CityState}
    (hp : p ∈ initCities cfg.cities) : ∀ e ∈ p.2.base, e.wf = true := by
  obtain ⟨cc, hcc, _, hbase, _⟩ := initCities_mem hp
  intro e he
  rw [hbase] at he
  simp only [cfgWf, Bool.and_eq_true, List.all_eq_true] at hwf
  have h2 := hwf.2 cc hcc
  simp only [ipWf, Bool.and_eq_true, List.all_eq_true] at h2
  exact h2.1 e he

/-- A block contained in some minimal CIDR of a set is contained in the set. -/
theorem coveredBy_of_sub_iter {x f : Cidr} {s : IPSet} (h32 : ∀ e ∈ s, e.len ≤ 32)
    (hf : f ∈ iterCidrs s) (hsub : subBlock x f = true) : coveredBy x s = true := by
  refine (coveredBy_iff h32).mpr ?_
  intro b hb
  have hbf : f.memA b = true := subBlock_mem hsub hb
  have h2 : addrIn (iterCidrs s) b = true := addrIn_iff.mpr ⟨f, hf, hbf⟩
  exact ((iterCidrs_mem h32).mp h2).2

/-- Every pair of overlapping bases produces at least one phase-1 report. -/
theorem phase1Reports_of_overlap {cs : CState} {p q : String × CityState}
    (hp : p ∈ cs) (hq : q ∈ cs) (hne : p.1 ≠ q.1)
    (hwp : ∀ e ∈ p.2.base, e.wf = true) (hwq : ∀ e ∈ q.2.base, e.wf = true)
    {a : Nat} (ha1 : addrIn p.2.base a = true) (ha2 : addrIn q.2.base a = true) :
    ∃ c, (c, p.1, q.1) ∈ phase1Reports cs ∨ (c, q.1, p.1) ∈ phase1Reports cs := by
  have h32p : ∀ e ∈ p.2.base, e.len ≤ 32 := fun e he => wf_len (hwp e he)
  have h32q : ∀ e ∈ q.2.base, e.len ≤ 32 := fun e he => wf_len (hwq e he)
  have hlt : a < 2 ^ 32 := by
    obtain ⟨e, he, hme⟩ := addrIn_iff.mp ha1
    exact Cidr.memA_lt (hwp e he) hme
  obtain ⟨e1, he1, hme1⟩ := addrIn_iff.mp ((iterCidrs_mem h32p).mpr ⟨hlt, ha1⟩)
  obtain ⟨f1, hf1, hmf1⟩ := addrIn_iff.mp ((iterCidrs_mem h32q).mpr ⟨hlt, ha2⟩)
  have hov : subBlock e1 f1 = true ∨ subBlock f1 e1 = true := by
    simpa [overlapB] using overlap_of_mem hme1 hmf1
  rcases hov with hsub | hsub
  · refine ⟨e1, Or.inl ?_⟩
    unfold phase1Reports
    refine List.mem_flatMap.mpr ⟨p, hp, List.mem_flatMap.mpr ⟨e1, he1,
      List.mem_filterMap.mpr ⟨q, hq, ?_⟩⟩⟩
    rw [if_pos]
    simp only [Bool.and_eq_true, decide_eq_true_eq]
    exact ⟨Ne.symm hne, coveredBy_of_sub_iter h32q hf1 hsub⟩
  · refine ⟨f1, Or.inr ?_⟩
    unfold phase1Reports
    refine List.mem_flatMap.mpr ⟨q, hq, List.mem_flatMap.mpr ⟨f1, hf1,
      List.mem_filterMap.mpr ⟨p, hp, ?_⟩⟩⟩
    rw [if_pos]
    simp only [Bool.and_eq_true, decide_eq_true_eq]
    exact ⟨hne, coveredBy_of_sub_iter h32p he1 hsub⟩

theorem isEmpty_false_of_mem {α : Type} {l : List α} {x : α} (h : x ∈ l) :
    l.isEmpty = false := by
  cases l
  · cases h
  · rfl

/-- On a phase-1 overlap the run result is the abort record. -/
theorem runCli_abort {cfg : Config} {world : World}
    (h : (phase1Reports (initCities cfg.cities)).isEmpty = false) :
    runCli cfg world =
      { reports := phase1Reports (initCities cfg.cities)
        aborted := true
        exitCode := 0
        queries := []
        logs := []
        outputs := [] } := by
  simp [runCli, h, sysExitStatus]

/-- Without a phase-1 overlap the run result comes from the full pipeline. -/
theorem runCli_ok {cfg : Config} {world : World}
    (h : (phase1Reports (initCities cfg.cities)).isEmpty = true) :
    runCli cfg world =
      { reports := []
        aborted := false
        exitCode := 0
        queries := (mainFold cfg world).2.2
        logs := (mainFold cfg world).2.1
        outputs := outputsOf (phase7 (phase6 (phase5 (mainFold cfg world).1))) } := by
  simp [runCli, h]

/-- Claim C4: when two distinct configured regions' base allocations overlap,
the run aborts with no device query issued, and the pair is reported. -/
theorem claim_C4 (cfg : Config) (world : World) (hwf : cfgWf cfg = true)
    (p q : String × CityState) (hp : p ∈ initCities cfg.cities)
    (hq : q ∈ initCities cfg.cities) (hne : p.1 ≠ q.1) (a : Nat)
    (ha1 : addrIn p.2.base a = true) (ha2 : addrIn q.2.base a = true) :
    (runCli cfg world).aborted = true ∧ (runCli cfg world).queries = [] ∧
    ∃ c, (c, p.1, q.1) ∈ (runCli cfg world).reports ∨
         (c, q.1, p.1) ∈ (runCli cfg world).reports := by
  obtain ⟨c, hc⟩ := phase1Reports_of_overlap hp hq hne (cfgWf_base hwf hp)
    (cfgWf_base hwf hq) ha1 ha2
  have hne2 : (phase1Reports (initCities cfg.cities)).isEmpty = false := by
    rcases hc with h | h
    · exact isEmpty_false_of_mem h
    · exact isEmpty_false_of_mem h
  rw [runCli_abort hne2]
  exact ⟨rfl, rfl, c, hc⟩

/-- Claim C4 witness at the overlapping two-city configuration. -/
theorem claim_C4_witness :
    cfgWf cfgOverlap = true ∧ entA ∈ initCities cfgOverlap.cities ∧
    entB ∈ initCities cfgOverlap.cities ∧ entA.1 ≠ entB.1 ∧
    addrIn entA.2.base 167772160 = true ∧ addrIn entB.2.base 167772160 = true ∧
    ((runCli cfgOverlap worldNone).aborted = true ∧
     (runCli cfgOverlap worldNone).queries = [] ∧
     ∃ c, (c, entA.1, entB.1) ∈ (runCli cfgOverlap worldNone).reports ∨
          (c, entB.1, entA.1) ∈ (runCli cfgOverlap worldNone).reports) :=
  ⟨by decide, by decide, by decide, by decide, by decide, by decide,
    claim_C4 cfgOverlap worldNone (by decide) entA entB (by decide) (by decide)
      (by decide) 167772160 (by decide) (by decide)⟩

/-! ## Query failure handling (claim C8) -/

/-- Claim C8: when a region's device queries fail, that region's cycles fold
no records (the city table is unchanged), the failure is logged, and the run
continues: whether the run aborts depends only on phase-1 validation, never
on query outcomes. -/
theorem claim_C8 (world : World) (paSpaceSet : IPSet)
    (cs : CState) (logs : List String) (qs : List (String × List String))
    (city : String) (st : CityState) (comm dev : String)
    (hget : getCity cs city = some st)
    (hc : st.community = some comm) (hd : st.device = some dev)
    (hcne : comm ≠ "") (hdne : dev ≠ "")
    (hfail1 : world dev [comm, ownMarker] = none)
    (hfail2 : world dev [comm, piMarker] = none) :
    (processCity world paSpaceSet (cs, logs, qs) city).1 = cs ∧
    connectErr dev ∈ (processCity world paSpaceSet (cs, logs, qs) city).2.1 ∧
    (∀ cfg w, (runCli cfg w).aborted = !(phase1Reports (initCities cfg.cities)).isEmpty) := by
  have hred : processCity world paSpaceSet (cs, logs, qs) city =
      (cs, logs ++ [connectErr dev] ++ [connectErr dev],
        qs ++ [(dev, [comm, ownMarker]), (dev, [comm, piMarker])]) := by
    unfold processCity
    simp only [hget, hc, hd]
    rw [if_neg (by simp [hcne, hdne])]
    unfold get_routes
    simp only [hfail1, hfail2]
  refine ⟨by rw [hred], by rw [hred]; simp, ?_⟩
  intro cfg w
  cases he : (phase1Reports (initCities cfg.cities)).isEmpty with
  | true =>
    rw [runCli_ok he]
    rfl
  | false =>
    rw [runCli_abort he]
    rfl

/-- Claim C8 witness: one configured city whose device queries all fail. -/
theorem claim_C8_witness :
    getCity csC8 "A" =
      some { stEmpty with base := [blk10s16], community := some "c", device := some "d" } ∧
    ((processCity worldNone [] (csC8, [], []) "A").1 = csC8 ∧
     connectErr "d" ∈ (processCity worldNone [] (csC8, [], []) "A").2.1 ∧
     (∀ cfg w, (runCli cfg w).aborted = !(phase1Reports (initCities cfg.cities)).isEmpty)) :=
  ⟨by decide,
    claim_C8 worldNone [] csC8 [] [] "A"
      { stEmpty with base := [blk10s16], community := some "c", device := some "d" }
      "c" "d" (by decide) (by decide) (by decide) (by decide) (by decide) rfl rfl⟩

/-- Claim C9 amended witness at a concrete input. -/
theorem claim_C9_amended_witness :
    get_routes worldI "h" ["x"] paC9 true = (some [], some [blk105s24], []) ∧
    (∀ a, ¬(addrIn [] a = true ∧ addrIn [blk105s24] a = true)) :=
  ⟨by decide,
    claim_C9_amended worldI "h" ["x"] paC9 true (by decide)
      (by
        intro routes hr rt hrt
        have h2 : some [rtC9b] = some routes := hr
        injection h2 with h3
        rw [← h3] at hrt
        rw [List.mem_singleton] at hrt
        rw [hrt]
        left
        decide)
      [] [blk105s24] [] (by decide)⟩

/-! ## Plumbing of the city table -/

theorem mem_updateCity {cs : CState} {n : String} {f : CityState → CityState}
    {p : String × CityState} :
    p ∈ updateCity cs n f ↔
      ∃ q ∈ cs, p = (if q.1 == n then (q.1, f q.2) else q) := by
  unfold updateCity
  constructor
  · intro h
    obtain ⟨q, hq, he⟩ := List.mem_map.mp h
    exact ⟨q, hq, he.symm⟩
  · intro h
    obtain ⟨q, hq, he⟩ := h
    exact List.mem_map.mpr ⟨q, hq, he.symm⟩

theorem getCity_mem {cs : CState} {n : String} {st : CityState}
    (h : getCity cs n = some st) : (n, st) ∈ cs := by
  unfold getCity at h
  cases hf : cs.find? (fun p => p.1 == n) with
  | none =>
    rw [hf] at h
    cases h
  | some pr =>
    rw [hf] at h
    have hm := List.mem_of_find?_eq_some hf
    have hp := List.find?_some hf
    injection h with h2
    have hpr : pr = (n, st) := by
      obtain ⟨n2, st2⟩ := pr
      simp only [beq_iff_eq] at hp
      simp only at h2
      rw [Prod.mk.injEq]
      exact ⟨hp, h2⟩
    rw [← hpr]
    exact hm

theorem eq_of_keys_nodup {cs : CState} (hkeys : (cs.map (fun p => p.1)).Nodup)
    {p q : String × CityState} (hp : p ∈ cs) (hq : q ∈ cs) (h : p.1 = q.1) : p = q :=
  List.inj_on_of_nodup_map hkeys hp hq h

theorem baseMap_mem {cs cs2 : CState} (h : baseMap cs2 = baseMap cs)
    {p : String × CityState} (hp : p ∈ cs2) :
    ∃ q ∈ cs, q.1 = p.1 ∧ q.2.base = p.2.base ∧ q.2.override = p.2.override := by
  have h2 : (p.1, p.2.base, p.2.override) ∈ baseMap cs := by
    rw [← h]
    exact List.mem_map.mpr ⟨p, hp, rfl⟩
  obtain ⟨q, hq, he⟩ := List.mem_map.mp h2
  simp only [Prod.mk.injEq] at he
  exact ⟨q, hq, he.1, he.2.1, he.2.2⟩

theorem keys_of_baseMap {cs cs2 : CState} (h : baseMap cs2 = baseMap cs) :
    cs2.map (fun p => p.1) = cs.map (fun p => p.1) := by
  have h2 := congrArg (List.map (fun x : String × IPSet × IPSet => x.1)) h
  simpa [baseMap, List.map_map, Function.comp] using h2

theorem baseDisj_of_baseMap {cs cs2 : CState} (h : baseMap cs2 = baseMap cs)
    (hd : BaseDisj cs) : BaseDisj cs2 := by
  intro p hp q hq hne a hcontra
  obtain ⟨p0, hp0, hpn, hpb, _⟩ := baseMap_mem h hp
  obtain ⟨q0, hq0, hqn, hqb, _⟩ := baseMap_mem h hq
  refine hd p0 hp0 q0 hq0 (by rw [hpn, hqn]; exact hne) a ?_
  rw [hpb, hqb]
  exact hcontra

theorem base32_of_baseMap {cs cs2 : CState} (h : baseMap cs2 = baseMap cs)
    (hb : Base32 cs) : Base32 cs2 := by
  intro p hp e he
  obtain ⟨q, hq, _, hqb, _⟩ := baseMap_mem h hp
  refine hb q hq e ?_
  rw [hqb]
  exact he

theorem updateCity_baseMap {cs : CState} {n : String} {f : CityState → CityState}
    (hf : ∀ st, (f st).base = st.base ∧ (f st).override = st.override) :
    baseMap (updateCity cs n f) = baseMap cs := by
  unfold updateCity baseMap
  rw [List.map_map]
  apply List.map_congr_left
  intro p _
  by_cases h : p.1 == n
  · simp [Function.comp, h, (hf p.2).1, (hf p.2).2]
  · simp [Function.comp, h]

theorem processOne_baseMap (cs : CState) (city : String) (pi cv : Bool) (c : Cidr) :
    baseMap (processOne cs city pi cv c) = baseMap cs := by
  unfold processOne
  split
  · rfl
  · split
    · split
      · exact updateCity_baseMap (fun st => ⟨rfl, rfl⟩)
      · rfl
    · split
      · split
        · dsimp only
          refine Eq.trans (updateCity_baseMap ?_) (updateCity_baseMap ?_) <;>
            exact fun st => ⟨rfl, rfl⟩
        · dsimp only
          refine Eq.trans (updateCity_baseMap ?_) (updateCity_baseMap ?_) <;>
            exact fun st => ⟨rfl, rfl⟩
      · split
        · exact updateCity_baseMap (fun st => ⟨rfl, rfl⟩)
        · exact updateCity_baseMap (fun st => ⟨rfl, rfl⟩)

theorem updateCity_lenB {B : Nat} {cs : CState} {n : String} {f : CityState → CityState}
    (h : LenB B cs) (hf : ∀ st, stateLenB B st → stateLenB B (f st)) :
    LenB B (updateCity cs n f) := by
  intro p hp
  obtain ⟨q, hq, he⟩ := mem_updateCity.mp hp
  by_cases hn : q.1 == n
  · rw [if_pos hn] at he
    rw [he]
    exact hf q.2 (h q hq)
  · rw [if_neg hn] at he
    rw [he]
    exact h q hq

theorem lenB_append {B : Nat} {s : IPSet} {c : Cidr} (hs : ∀ e ∈ s, e.len ≤ B)
    (hc : c.len ≤ B) : ∀ e ∈ s ++ [c], e.len ≤ B := by
  intro e he
  rcases List.mem_append.mp he with h | h
  · exact hs e h
  · rw [List.mem_singleton] at h
    rw [h]
    exact hc

theorem processOne_lenB {B : Nat} {cs : CState} {city : String} {pi cv : Bool} {c : Cidr}
    (hc : c.len ≤ B) (h : LenB B cs) : LenB B (processOne cs city pi cv c) := by
  unfold processOne
  split
  · exact h
  · split
    · split
      · refine updateCity_lenB h ?_
        intro st hst
        obtain ⟨h1, h2, h3, h4, h5, h6, h7⟩ := hst
        exact ⟨h1, h2, lenB_append h3 hc, h4, h5, lenB_append h6 hc, h7⟩
      · exact h
    · split
      · dsimp only
        rename_i sn heq2
        have hmid : LenB B (updateCity cs sn.1 (fun s => { s with exclude := s.exclude ++ [c] })) := by
          refine updateCity_lenB h ?_
          intro st hst
          obtain ⟨h1, h2, h3, h4, h5, h6, h7⟩ := hst
          exact ⟨h1, h2, lenB_append h3 hc, h4, h5, h6, h7⟩
        split
        · refine updateCity_lenB hmid ?_
          intro st hst
          obtain ⟨h1, h2, h3, h4, h5, h6, h7⟩ := hst
          exact ⟨h1, h2, h3, h4, h5, lenB_append h6 hc, h7⟩
        · refine updateCity_lenB hmid ?_
          intro st hst
          obtain ⟨h1, h2, h3, h4, h5, h6, h7⟩ := hst
          exact ⟨h1, lenB_append h2 hc, h3, h4, h5, h6, h7⟩
      · split
        · refine updateCity_lenB h ?_
          intro st hst
          obtain ⟨h1, h2, h3, h4, h5, h6, h7⟩ := hst
          exact ⟨h1, h2, h3, lenB_append h4 hc, h5, h6, h7⟩
        · refine updateCity_lenB h ?_
          intro st hst
          obtain ⟨h1, h2, h3, h4, h5, h6, h7⟩ := hst
          exact ⟨h1, h2, h3, h4, lenB_append h5 hc, h6, h7⟩

theorem addCross_mono {cs : CState} {n : String} {f : CityState → CityState}
    (hadd : ∀ st, (f st).additions = st.additions)
    (hbase : ∀ st, (f st).base = st.base)
    (hexcl : ∀ st a, addrIn st.exclude a = true → addrIn (f st).exclude a = true)
    (hac : AddCross cs) : AddCross (updateCity cs n f) := by
  intro p hp q hq a ha hb
  obtain ⟨p0, hp0, hpe⟩ := mem_updateCity.mp hp
  obtain ⟨q0, hq0, hqe⟩ := mem_updateCity.mp hq
  have hpadd : p.2.additions = p0.2.additions := by
    by_cases h : p0.1 == n
    · rw [if_pos h] at hpe
      rw [hpe]
      exact hadd p0.2
    · rw [if_neg h] at hpe
      rw [hpe]
  have hqbase : q.2.base = q0.2.base := by
    by_cases h : q0.1 == n
    · rw [if_pos h] at hqe
      rw [hqe]
      exact hbase q0.2
    · rw [if_neg h] at hqe
      rw [hqe]
  have hqexcl : addrIn q0.2.exclude a = true → addrIn q.2.exclude a = true := by
    by_cases h : q0.1 == n
    · rw [if_pos h] at hqe
      rw [hqe]
      exact hexcl q0.2 a
    · rw [if_neg h] at hqe
      rw [hqe]
      exact id
  refine hqexcl (hac p0 hp0 q0 hq0 a ?_ ?_)
  · rw [← hpadd]
    exact ha
  · rw [← hqbase]
    exact hb

theorem processOne_addCross {cs : CState} {city : String} {pi cv : Bool} {c : Cidr}
    (hkeys : (cs.map (fun p => p.1)).Nodup)
    (hdisj : BaseDisj cs) (hbase32 : Base32 cs) (hac : AddCross cs) :
    AddCross (processOne cs city pi cv c) := by
  unfold processOne
  split
  · exact hac
  · rename_i stOpt st hget
    split
    · split
      · exact addCross_mono (fun s => rfl) (fun s => rfl)
          (fun s a h => by simp [addrIn_append, h]) hac
      · exact hac
    · rename_i hncov
      split
      · rename_i snOpt sn hfind
        dsimp only
        have hsnmem : sn ∈ cs := List.mem_of_find?_eq_some hfind
        have hsncov : coveredBy c sn.2.base = true := by
          have h2 := List.find?_some hfind
          exact h2
        have hcitymem : (city, st) ∈ cs := getCity_mem hget
        have hsnne : sn.1 ≠ city := by
          intro hh
          have h2 : sn = (city, st) := eq_of_keys_nodup hkeys hsnmem hcitymem hh
          rw [h2] at hsncov
          exact hncov hsncov
        have hsub : ∀ a, c.memA a = true → addrIn sn.2.base a = true :=
          (coveredBy_iff (hbase32 sn hsnmem)).mp hsncov
        split
        · refine addCross_mono (fun s => rfl) (fun s => rfl) (fun s a h => h) ?_
          exact addCross_mono (fun s => rfl) (fun s => rfl)
            (fun s a h => by simp [addrIn_append, h]) hac
        · intro p hp q hq a ha hb
          obtain ⟨p1, hp1, hpe⟩ := mem_updateCity.mp hp
          obtain ⟨q1, hq1, hqe⟩ := mem_updateCity.mp hq
          obtain ⟨p0, hp0, hpe0⟩ := mem_updateCity.mp hp1
          obtain ⟨q0, hq0, hqe0⟩ := mem_updateCity.mp hq1
          have hp1add : p1.2.additions = p0.2.additions := by
            by_cases h1 : p0.1 == sn.1
            · rw [if_pos h1] at hpe0
              rw [hpe0]
            · rw [if_neg h1] at hpe0
              rw [hpe0]
          have hq1base : q1.2.base = q0.2.base := by
            by_cases h1 : q0.1 == sn.1
            · rw [if_pos h1] at hqe0
              rw [hqe0]
            · rw [if_neg h1] at hqe0
              rw [hqe0]
          have hq_base : q.2.base = q0.2.base := by
            by_cases h1 : q1.1 == city
            · rw [if_pos h1] at hqe
              rw [hqe]
              exact hq1base
            · rw [if_neg h1] at hqe
              rw [hqe]
              exact hq1base
          have hp_or : addrIn p0.2.additions a = true ∨ c.memA a = true := by
            by_cases h1 : p1.1 == city
            · rw [if_pos h1] at hpe
              have h2 : addrIn (p1.2.additions ++ [c]) a = true := by
                rw [hpe] at ha
                exact ha
              rw [addrIn_append, Bool.or_eq_true, addrIn_single] at h2
              rw [hp1add] at h2
              exact h2
            · rw [if_neg h1] at hpe
              left
              rw [hpe] at ha
              rw [← hp1add]
              exact ha
          have hq_excl : (addrIn q0.2.exclude a = true ∨ (q0.1 = sn.1 ∧ c.memA a = true)) →
              addrIn q.2.exclude a = true := by
            intro hor
            have hq_eq : q.2.exclude = q1.2.exclude := by
              by_cases h1 : q1.1 == city
              · rw [if_pos h1] at hqe
                rw [hqe]
              · rw [if_neg h1] at hqe
                rw [hqe]
            rw [hq_eq]
            by_cases h1 : q0.1 == sn.1
            · rw [if_pos h1] at hqe0
              have h2 : q1.2.exclude = q0.2.exclude ++ [c] := by
                rw [hqe0]
              rw [h2, addrIn_append, Bool.or_eq_true, addrIn_single]
              rcases hor with h3 | h3
              · exact Or.inl h3
              · exact Or.inr h3.2
            · rw [if_neg h1] at hqe0
              have h2 : q1.2.exclude = q0.2.exclude := by
                rw [hqe0]
              rw [h2]
              rcases hor with h3 | h3
              · exact h3
              · exact absurd h3.1 (by simpa using h1)
          rcases hp_or with hold | hcm
          · refine hq_excl (Or.inl (hac p0 hp0 q0 hq0 a hold ?_))
            rw [hq_base] at hb
            exact hb
          · have hsnb : addrIn sn.2.base a = true := hsub a hcm
            have hq0b : addrIn q0.2.base a = true := hq_base ▸ hb
            by_cases hqq : q0.1 = sn.1
            · exact hq_excl (Or.inr ⟨hqq, hcm⟩)
            · exact absurd ⟨hq0b, hsnb⟩ (hdisj q0 hq0 sn hsnmem hqq a)
      · split
        · exact addCross_mono (fun s => rfl) (fun s => rfl) (fun s a h => h) hac
        · exact addCross_mono (fun s => rfl) (fun s => rfl) (fun s a h => h) hac

theorem foldl_processOne_pres {city : String} {pi cv : Bool} :
    ∀ (l : List Cidr) (cs : CState),
      (cs.map (fun p => p.1)).Nodup → BaseDisj cs → Base32 cs → AddCross cs →
      baseMap (List.foldl (fun acc cidr => processOne acc city pi cv cidr) cs l) = baseMap cs ∧
      AddCross (List.foldl (fun acc cidr => processOne acc city pi cv cidr) cs l) := by
  intro l
  induction l with
  | nil =>
    intro cs _ _ _ hac
    exact ⟨rfl, hac⟩
  | cons x xs ih =>
    intro cs hkeys hdisj hb32 hac
    rw [List.foldl_cons]
    have hbm := processOne_baseMap cs city pi cv x
    have hkeys2 : ((processOne cs city pi cv x).map (fun p => p.1)).Nodup := by
      rw [keys_of_baseMap hbm]
      exact hkeys
    obtain ⟨h1, h2⟩ := ih (processOne cs city pi cv x) hkeys2
      (baseDisj_of_baseMap hbm hdisj) (base32_of_baseMap hbm hb32)
      (processOne_addCross hkeys hdisj hb32 hac)
    exact ⟨h1.trans hbm, h2⟩

theorem process_routes_pres {cs : CState} {prefixSet : IPSet} {country city : String}
    {pi cv : Bool} (hkeys : (cs.map (fun p => p.1)).Nodup) (hdisj : BaseDisj cs)
    (hb32 : Base32 cs) (hac : AddCross cs) :
    baseMap (process_routes cs prefixSet country city pi cv) = baseMap cs ∧
    AddCross (process_routes cs prefixSet country city pi cv) :=
  foldl_processOne_pres (iterCidrs prefixSet) cs hkeys hdisj hb32 hac

theorem foldOpt_pres {cs : CState} (r : Option IPSet) (country city : String)
    (pi cv : Bool) (hkeys : (cs.map (fun p => p.1)).Nodup) (hdisj : BaseDisj cs)
    (hb32 : Base32 cs) (hac : AddCross cs) :
    baseMap (foldOpt cs r country city pi cv) = baseMap cs ∧
    AddCross (foldOpt cs r country city pi cv) := by
  cases r with
  | none => exact ⟨rfl, hac⟩
  | some s => exact @process_routes_pres cs s country city pi cv hkeys hdisj hb32 hac

theorem chain4_pres (cs : CState) (o1 o2 o3 o4 : Option IPSet) (country city : String)
    (hkeys : (cs.map (fun p => p.1)).Nodup) (hdisj : BaseDisj cs)
    (hb32 : Base32 cs) (hac : AddCross cs) :
    baseMap
      (foldOpt (foldOpt (foldOpt (foldOpt cs o1 country city false false)
        o2 country city false true) o3 country city true false)
        o4 country city true true) = baseMap cs ∧
    AddCross
      (foldOpt (foldOpt (foldOpt (foldOpt cs o1 country city false false)
        o2 country city false true) o3 country city true false)
        o4 country city true true) := by
  obtain ⟨hb1, ha1⟩ := foldOpt_pres o1 country city false false hkeys hdisj hb32 hac
  have hk1 := keys_of_baseMap hb1
  obtain ⟨hb2, ha2⟩ := foldOpt_pres o2 country city false true
    (by rw [hk1]; exact hkeys) (baseDisj_of_baseMap hb1 hdisj)
    (base32_of_baseMap hb1 hb32) ha1
  have hb2c := hb2.trans hb1
  have hk2 := keys_of_baseMap hb2c
  obtain ⟨hb3, ha3⟩ := foldOpt_pres o3 country city true false
    (by rw [hk2]; exact hkeys) (baseDisj_of_baseMap hb2c hdisj)
    (base32_of_baseMap hb2c hb32) ha2
  have hb3c := hb3.trans hb2c
  have hk3 := keys_of_baseMap hb3c
  obtain ⟨hb4, ha4⟩ := foldOpt_pres o4 country city true true
    (by rw [hk3]; exact hkeys) (baseDisj_of_baseMap hb3c hdisj)
    (base32_of_baseMap hb3c hb32) ha3
  exact ⟨hb4.trans hb3c, ha4⟩

theorem processCity_pres (world : World) (paSpaceSet : IPSet)
    (acc : CState × List String × List (String × List String)) (city : String)
    (hkeys : ((acc.1).map (fun p => p.1)).Nodup) (hdisj : BaseDisj acc.1)
    (hb32 : Base32 acc.1) (hac : AddCross acc.1) :
    baseMap (processCity world paSpaceSet acc city).1 = baseMap acc.1 ∧
    AddCross (processCity world paSpaceSet acc city).1 := by
  unfold processCity
  split
  · exact ⟨rfl, hac⟩
  · split
    · split
      · exact ⟨rfl, hac⟩
      · dsimp only
        exact chain4_pres acc.1 _ _ _ _ _ city hkeys hdisj hb32 hac
    · exact ⟨rfl, hac⟩

theorem foldl_processCity_pres (world : World) (pa : IPSet) :
    ∀ (l : List String) (acc : CState × List String × List (String × List String)),
      ((acc.1).map (fun p => p.1)).Nodup → BaseDisj acc.1 → Base32 acc.1 → AddCross acc.1 →
      baseMap (List.foldl (processCity world pa) acc l).1 = baseMap acc.1 ∧
      AddCross (List.foldl (processCity world pa) acc l).1 := by
  intro l
  induction l with
  | nil =>
    intro acc _ _ _ hac
    exact ⟨rfl, hac⟩
  | cons x xs ih =>
    intro acc hkeys hdisj hb32 hac
    rw [List.foldl_cons]
    obtain ⟨hb1, ha1⟩ := processCity_pres world pa acc x hkeys hdisj hb32 hac
    have hk1 := keys_of_baseMap hb1
    obtain ⟨h1, h2⟩ := ih (processCity world pa acc x)
      (by rw [hk1]; exact hkeys) (baseDisj_of_baseMap hb1 hdisj)
      (base32_of_baseMap hb1 hb32) ha1
    exact ⟨h1.trans hb1, h2⟩

theorem mainFold_pres (cfg : Config) (world : World)
    (hkeys : ((initCities cfg.cities).map (fun p => p.1)).Nodup)
    (hdisj : BaseDisj (initCities cfg.cities))
    (hb32 : Base32 (initCities cfg.cities))
    (hac : AddCross (initCities cfg.cities)) :
    baseMap (mainFold cfg world).1 = baseMap (initCities cfg.cities) ∧
    AddCross (mainFold cfg world).1 := by
  unfold mainFold
  exact foldl_processCity_pres world cfg.paspace _ _ hkeys hdisj hb32 hac

theorem baseDisj_of_no_reports {cs : CState}
    (hwf : ∀ p ∈ cs, ∀ e ∈ p.2.base, e.wf = true)
    (hrep : phase1Reports cs = []) : BaseDisj cs := by
  intro p hp q hq hne a hcontra
  obtain ⟨c, hc⟩ := phase1Reports_of_overlap hp hq hne (hwf p hp) (hwf q hq)
    hcontra.1 hcontra.2
  rcases hc with h | h <;> rw [hrep] at h <;> cases h

theorem eq_nil_of_isEmpty {α : Type} {l : List α} (h : l.isEmpty = true) : l = [] := by
  cases l
  · rfl
  · cases h

theorem phase5_entry {cs : CState} {p : String × CityState} (hp : p ∈ phase5 cs) :
    ∃ q ∈ cs, p.1 = q.1 ∧ p.2.base = q.2.base ∧ p.2.additions = q.2.additions ∧
      p.2.exclude = q.2.exclude ∧ p.2.override = q.2.override ∧
      p.2.smallpiSpace = q.2.smallpiSpace ∧ p.2.carvedSpace = q.2.carvedSpace := by
  unfold phase5 at hp
  obtain ⟨q, hq, he⟩ := List.mem_map.mp hp
  refine ⟨q, hq, ?_, ?_, ?_, ?_, ?_, ?_, ?_⟩ <;> rw [← he]

theorem phase6_entry {cs : CState} {p : String × CityState} (hp : p ∈ phase6 cs) :
    ∃ q ∈ cs, p.1 = q.1 ∧
      p.2.base = ipDiff (q.2.base ++ q.2.additions) q.2.exclude ++ q.2.override ∧
      p.2.override = q.2.override ∧
      p.2.piSpace = q.2.piSpace ++ q.2.smallpiSpace ++ q.2.carvedSpace := by
  unfold phase6 at hp
  obtain ⟨q, hq, he⟩ := List.mem_map.mp hp
  refine ⟨q, hq, ?_, ?_, ?_, ?_⟩ <;> rw [← he]

theorem phase7_id_of_no_override {cs : CState} (h : ∀ p ∈ cs, p.2.override = []) :
    phase7 cs = cs := by
  unfold phase7
  suffices hgen : ∀ (l : CState),
      List.foldl
        (fun acc p =>
          match getCity acc p.1 with
          | none => acc
          | some st =>
            (iterCidrs st.override).foldl
              (fun acc2 cidr =>
                acc2.map (fun q =>
                  if q.1 == p.1 then q
                  else
                    (q.1,
                      { q.2 with
                        base := overrideRemove q.2.base cidr
                        piSpace := overrideRemove q.2.piSpace cidr })))
              acc)
        cs l = cs by
    exact hgen cs
  intro l
  induction l with
  | nil => rfl
  | cons x xs ih =>
    rw [List.foldl_cons]
    have hstep : (match getCity cs x.1 with
        | none => cs
        | some st =>
          (iterCidrs st.override).foldl
            (fun acc2 cidr =>
              acc2.map (fun q =>
                if q.1 == x.1 then q
                else
                  (q.1,
                    { q.2 with
                      base := overrideRemove q.2.base cidr
                      piSpace := overrideRemove q.2.piSpace cidr })))
            cs) = cs := by
      cases hg : getCity cs x.1 with
      | none => rfl
      | some st =>
        have hov : st.override = [] := h (x.1, st) (getCity_mem hg)
        dsimp only
        rw [hov]
        rfl
    rw [hstep, ih]

theorem foldl_processOne_lenB {B : Nat} {city : String} {pi cv : Bool} :
    ∀ (l : List Cidr) (cs : CState), (∀ x ∈ l, x.len ≤ B) → LenB B cs →
      LenB B (List.foldl (fun acc cidr => processOne acc city pi cv cidr) cs l) := by
  intro l
  induction l with
  | nil => exact fun cs _ h => h
  | cons x xs ih =>
    intro cs hl h
    rw [List.foldl_cons]
    exact ih _ (fun y hy => hl y (List.mem_cons_of_mem _ hy))
      (processOne_lenB (hl x (List.mem_cons_self x xs)) h)

theorem process_routes_lenB32 {cs : CState} {prefixSet : IPSet} {country city : String}
    {pi cv : Bool} (h : LenB 32 cs) :
    LenB 32 (process_routes cs prefixSet country city pi cv) :=
  foldl_processOne_lenB (iterCidrs prefixSet) cs (iterCidrs_le32 prefixSet) h

theorem foldOpt_lenB32 {cs : CState} (r : Option IPSet) (country city : String)
    (pi cv : Bool) (h : LenB 32 cs) : LenB 32 (foldOpt cs r country city pi cv) := by
  cases r with
  | none => exact h
  | some s => exact @process_routes_lenB32 cs s country city pi cv h

theorem processCity_lenB32 (world : World) (pa : IPSet)
    (acc : CState × List String × List (String × List String)) (city : String)
    (h : LenB 32 acc.1) : LenB 32 (processCity world pa acc city).1 := by
  unfold processCity
  split
  · exact h
  · split
    · split
      · exact h
      · dsimp only
        exact foldOpt_lenB32 _ _ city true true
          (foldOpt_lenB32 _ _ city true false
            (foldOpt_lenB32 _ _ city false true
              (foldOpt_lenB32 _ _ city false false h)))
    · exact h

theorem foldl_processCity_lenB32 (world : World) (pa : IPSet) :
    ∀ (l : List String) (acc : CState × List String × List (String × List String)),
      LenB 32 acc.1 → LenB 32 (List.foldl (processCity world pa) acc l).1 := by
  intro l
  induction l with
  | nil => exact fun acc h => h
  | cons x xs ih =>
    intro acc h
    rw [List.foldl_cons]
    exact ih _ (processCity_lenB32 world pa acc x h)

theorem mainFold_lenB32 (cfg : Config) (world : World)
    (h : LenB 32 (initCities cfg.cities)) : LenB 32 (mainFold cfg world).1 := by
  unfold mainFold
  exact foldl_processCity_lenB32 world cfg.paspace _ _ h

/-- The `cfgWf` bound transferred to the initial city table. -/
theorem cfgWf_lenB32 {cfg : Config} (hwf : cfgWf cfg = true) :
    LenB 32 (initCities cfg.cities) := by
  intro p hp
  obtain ⟨cc, hcc, heq⟩ := List.mem_map.mp hp
  subst heq
  simp only [cfgWf, Bool.and_eq_true, List.all_eq_true] at hwf
  have h2 := hwf.2 cc hcc
  simp only [ipWf, Bool.and_eq_true, List.all_eq_true] at h2
  refine ⟨fun e he => wf_len (h2.1 e he), ?_, ?_, ?_, ?_, ?_, fun e he => wf_len (h2.2 e he)⟩
    <;> intro e he <;> cases he

/-- Claim C1 (amended): after the full run the final base sets of distinct
regions are disjoint, for every configuration passing phase-1 validation
that has no overrides, provided the additions granted to distinct regions
during phase 4 are pairwise address-disjoint. -/
theorem claim_C1_amended (cfg : Config) (world : World)
    (hwf : cfgWf cfg = true) (hnames : cfgUniqueNames cfg = true)
    (hrep : phase1Reports (initCities cfg.cities) = [])
    (hov : cfg.cities.all (fun c => c.override.isEmpty) = true)
    (hadd : addDisjoint (mainFold cfg world).1 = true) :
    ∀ o1 o2, o1 ∈ (runCli cfg world).outputs → o2 ∈ (runCli cfg world).outputs →
      o1.name ≠ o2.name →
      ∀ a, ¬(addrIn o1.cidrs a = true ∧ addrIn o2.cidrs a = true) := by
  intro o1 o2 ho1 ho2 hne a hcontra
  have hkeys0 : ((initCities cfg.cities).map (fun p => p.1)).Nodup := by
    have hmm : (initCities cfg.cities).map (fun p => p.1) =
        cfg.cities.map (fun c => c.name) := by
      unfold initCities
      rw [List.map_map]
      rfl
    rw [hmm]
    exact of_decide_eq_true hnames
  have hwfb : ∀ p ∈ initCities cfg.cities, ∀ e ∈ p.2.base, e.wf = true :=
    fun p hp => cfgWf_base hwf hp
  have hb320 : Base32 (initCities cfg.cities) := fun p hp e he => wf_len (hwfb p hp e he)
  have hdisj0 : BaseDisj (initCities cfg.cities) := baseDisj_of_no_reports hwfb hrep
  have hac0 : AddCross (initCities cfg.cities) := by
    intro p hp q hq a2 ha2 hb2
    obtain ⟨cc, _, _, _, _, haddi, _⟩ := initCities_mem hp
    rw [haddi] at ha2
    cases ha2
  obtain ⟨hbm, hacM⟩ := mainFold_pres cfg world hkeys0 hdisj0 hb320 hac0
  have hlen1 : LenB 32 (mainFold cfg world).1 :=
    mainFold_lenB32 cfg world (cfgWf_lenB32 hwf)
  have hdisj1 : BaseDisj (mainFold cfg world).1 := baseDisj_of_baseMap hbm hdisj0
  have hov1 : ∀ p ∈ (mainFold cfg world).1, p.2.override = [] := by
    intro p hp
    obtain ⟨q, hq0, _, _, hqov⟩ := baseMap_mem hbm hp
    obtain ⟨cc, hcc, _, _, hov0, _⟩ := initCities_mem hq0
    rw [← hqov, hov0]
    exact eq_nil_of_isEmpty ((List.all_eq_true.mp hov) cc hcc)
  have habort : (phase1Reports (initCities cfg.cities)).isEmpty = true := by
    rw [hrep]
    rfl
  rw [runCli_ok habort] at ho1 ho2
  have hov6 : ∀ p ∈ phase6 (phase5 (mainFold cfg world).1), p.2.override = [] := by
    intro p hp
    obtain ⟨q, hq, _, _, hqov, _⟩ := phase6_entry hp
    obtain ⟨t, ht, _, _, _, _, htov, _⟩ := phase5_entry hq
    rw [hqov, htov]
    exact hov1 t ht
  rw [phase7_id_of_no_override hov6] at ho1 ho2
  unfold outputsOf at ho1 ho2
  obtain ⟨r1, hr1, he1⟩ := List.mem_map.mp ho1
  obtain ⟨r2, hr2, he2⟩ := List.mem_map.mp ho2
  obtain ⟨s1, hs1, hk1, hb1, hovD1, _⟩ := phase6_entry hr1
  obtain ⟨s2, hs2, hk2, hb2, hovD2, _⟩ := phase6_entry hr2
  obtain ⟨t1, ht1, hk1b, hbase1, haddi1, hexcl1, htov1, _⟩ := phase5_entry hs1
  obtain ⟨t2, ht2, hk2b, hbase2, haddi2, hexcl2, htov2, _⟩ := phase5_entry hs2
  have hT12 : t1.1 ≠ t2.1 := by
    have hn1 : o1.name = r1.1 := by rw [← he1]
    have hn2 : o2.name = r2.1 := by rw [← he2]
    rw [hn1, hn2, hk1, hk2, hk1b, hk2b] at hne
    exact hne
  obtain ⟨hB1, hA1, hE1, _⟩ := hlen1 t1 ht1
  obtain ⟨hB2, hA2, hE2, _⟩ := hlen1 t2 ht2
  have hbase_eq1 : r1.2.base = ipDiff (t1.2.base ++ t1.2.additions) t1.2.exclude := by
    rw [hb1, hbase1, haddi1, hexcl1, htov1, hov1 t1 ht1, List.append_nil]
  have hbase_eq2 : r2.2.base = ipDiff (t2.2.base ++ t2.2.additions) t2.2.exclude := by
    rw [hb2, hbase2, haddi2, hexcl2, htov2, hov1 t2 ht2, List.append_nil]
  have hcid1 : o1.cidrs = iterCidrs r1.2.base := by rw [← he1]
  have hcid2 : o2.cidrs = iterCidrs r2.2.base := by rw [← he2]
  have hm1 := hcontra.1
  have hm2 := hcontra.2
  rw [hcid1, hbase_eq1] at hm1
  rw [hcid2, hbase_eq2] at hm2
  have hd32a : ∀ e ∈ ipDiff (t1.2.base ++ t1.2.additions) t1.2.exclude, e.len ≤ 32 :=
    ipDiff_le32 (fun e he => by
      rcases List.mem_append.mp he with h | h
      · exact hB1 e h
      · exact hA1 e h)
  have hd32b : ∀ e ∈ ipDiff (t2.2.base ++ t2.2.additions) t2.2.exclude, e.len ≤ 32 :=
    ipDiff_le32 (fun e he => by
      rcases List.mem_append.mp he with h | h
      · exact hB2 e h
      · exact hA2 e h)
  have hdm1 := ((iterCidrs_mem hd32a).mp hm1).2
  have hdm2 := ((iterCidrs_mem hd32b).mp hm2).2
  obtain ⟨hu1, hx1⟩ := (ipDiff_mem hE1).mp hdm1
  obtain ⟨hu2, hx2⟩ := (ipDiff_mem hE2).mp hdm2
  rw [addrIn_append, Bool.or_eq_true] at hu1 hu2
  rcases hu1 with hb1a | ha1a <;> rcases hu2 with hb2a | ha2a
  · exact hdisj1 t1 ht1 t2 ht2 hT12 a ⟨hb1a, hb2a⟩
  · rw [hacM t2 ht2 t1 ht1 a ha2a hb1a] at hx1
    cases hx1
  · rw [hacM t1 ht1 t2 ht2 a ha1a hb2a] at hx2
    cases hx2
  · have hdd := (List.all_eq_true.mp (List.all_eq_true.mp hadd t1 ht1)) t2 ht2
    rw [Bool.or_eq_true] at hdd
    rcases hdd with h | h
    · exact hT12 (by simpa using h)
    · exact ipDisjoint_sem h a ⟨ha1a, ha2a⟩

/-- Claim C1 counterexample: the configuration passes phase-1 validation,
both R1 and R2 fold the same range 10.0.0.0/24 out of Q's base, and both
final `cidrs` lists contain address 10.0.0.0 — the final bases of the two
distinct regions overlap. -/
theorem claim_C1_counterexample :
    (runCli cfgC1 worldC1).reports = [] ∧
    addrIn (outCidrs (runCli cfgC1 worldC1) "R1") 167772160 = true ∧
    addrIn (outCidrs (runCli cfgC1 worldC1) "R2") 167772160 = true := by
  refine ⟨by decide, by decide, by decide⟩

/-- Claim C1 amended witness at a two-region configuration. -/
theorem claim_C1_witness :
    cfgWf cfgDisjoint = true ∧ cfgUniqueNames cfgDisjoint = true ∧
    phase1Reports (initCities cfgDisjoint.cities) = [] ∧
    cfgDisjoint.cities.all (fun c => c.override.isEmpty) = true ∧
    addDisjoint (mainFold cfgDisjoint worldNone).1 = true ∧
    (∀ o1 o2, o1 ∈ (runCli cfgDisjoint worldNone).outputs →
      o2 ∈ (runCli cfgDisjoint worldNone).outputs → o1.name ≠ o2.name →
      ∀ a, ¬(addrIn o1.cidrs a = true ∧ addrIn o2.cidrs a = true)) :=
  ⟨by decide, by decide, by decide, by decide, by decide,
    claim_C1_amended cfgDisjoint worldNone (by decide) (by decide) (by decide)
      (by decide) (by decide)⟩

/-! ## No single-host ranges (claim C6) -/

theorem classify_le31 {pa : IPSet} {pi : Bool} :
    ∀ (routes : List RawRoute) (p c : IPSet),
      (∀ e ∈ p, e.len ≤ 31) → (∀ e ∈ c, e.len ≤ 31) →
      ∀ res, routes.foldlM (fun acc rt => classifyStep pa pi acc rt) (p, c) = some res →
        (∀ e ∈ res.1, e.len ≤ 31) ∧ (∀ e ∈ res.2, e.len ≤ 31) := by
  intro routes
  induction routes with
  | nil =>
    intro p c hp hc res h
    rw [List.foldlM_nil] at h
    injection h with h2
    rw [← h2]
    exact ⟨hp, hc⟩
  | cons rt rest ih =>
    intro p c hp hc res h
    rw [List.foldlM_cons] at h
    rcases classifyStep_cases pa pi p c rt with hs | hs | ⟨h32, _, _, hs⟩ | ⟨h32, _, hs⟩
    · rw [hs] at h
      exact ih p c hp hc res h
    · rw [hs] at h
      cases h
    · rw [hs] at h
      exact ih p (c ++ [rt.dest]) hp (lenB_append hc (by omega)) res h
    · rw [hs] at h
      exact ih (p ++ [rt.dest]) c (lenB_append hp (by omega)) hc res h

theorem get_routes_le31 (world : World) (host : String) (communities : List String)
    (pa : IPSet) (pi : Bool) :
    (∀ s, (get_routes world host communities pa pi).1 = some s → ∀ e ∈ s, e.len ≤ 31) ∧
    (∀ s, (get_routes world host communities pa pi).2.1 = some s → ∀ e ∈ s, e.len ≤ 31) := by
  unfold get_routes
  cases hw : world host communities with
  | none =>
    constructor <;> intro s hs <;> cases hs
  | some routes =>
    dsimp only
    by_cases he : routes.isEmpty = true
    · rw [if_pos he]
      constructor <;> intro s hs <;> cases hs
    · rw [if_neg he]
      cases hf : routes.foldlM (fun acc rt => classifyStep pa pi acc rt) ([], []) with
      | none =>
        constructor <;> intro s hs <;> cases hs
      | some pc =>
        obtain ⟨p2, c2⟩ := pc
        have hlen := classify_le31 routes [] [] (fun e he2 => by cases he2)
          (fun e he2 => by cases he2) (p2, c2) hf
        constructor <;> intro s hs <;> injection hs with hs2 <;> rw [← hs2]
        · exact hlen.1
        · exact hlen.2

theorem foldOpt_lenB31 {cs : CState} (r : Option IPSet) (country city : String)
    (pi cv : Bool) (hr : ∀ s, r = some s → ∀ e ∈ s, e.len ≤ 31) (h : LenB 31 cs) :
    LenB 31 (foldOpt cs r country city pi cv) := by
  cases r with
  | none => exact h
  | some s =>
    exact foldl_processOne_lenB (iterCidrs s) cs (iterCidrs_le31 (hr s rfl)) h

theorem processCity_lenB31 (world : World) (pa : IPSet)
    (acc : CState × List String × List (String × List String)) (city : String)
    (h : LenB 31 acc.1) : LenB 31 (processCity world pa acc city).1 := by
  unfold processCity
  split
  · exact h
  · split
    · split
      · exact h
      · dsimp only
        refine foldOpt_lenB31 _ _ city true true ?_
          (foldOpt_lenB31 _ _ city true false ?_
            (foldOpt_lenB31 _ _ city false true ?_
              (foldOpt_lenB31 _ _ city false false ?_ h)))
        · exact (get_routes_le31 world _ _ pa true).2
        · exact (get_routes_le31 world _ _ pa true).1
        · exact (get_routes_le31 world _ _ pa false).2
        · exact (get_routes_le31 world _ _ pa false).1
    · exact h

theorem foldl_processCity_lenB31 (world : World) (pa : IPSet) :
    ∀ (l : List String) (acc : CState × List String × List (String × List String)),
      LenB 31 acc.1 → LenB 31 (List.foldl (processCity world pa) acc l).1 := by
  intro l
  induction l with
  | nil => exact fun acc h => h
  | cons x xs ih =>
    intro acc h
    rw [List.foldl_cons]
    exact ih _ (processCity_lenB31 world pa acc x h)

theorem mainFold_lenB31 (cfg : Config) (world : World)
    (h : LenB 31 (initCities cfg.cities)) : LenB 31 (mainFold cfg world).1 := by
  unfold mainFold
  exact foldl_processCity_lenB31 world cfg.paspace _ _ h

theorem cfgNoHost_lenB31 {cfg : Config} (h : cfgNoHost cfg = true) :
    LenB 31 (initCities cfg.cities) := by
  intro p hp
  obtain ⟨cc, hcc, heq⟩ := List.mem_map.mp hp
  subst heq
  simp only [cfgNoHost, List.all_eq_true, Bool.and_eq_true] at h
  have h2 := h cc hcc
  simp only [ipNoHost, List.all_eq_true, decide_eq_true_eq] at h2
  refine ⟨h2.1, ?_, ?_, ?_, ?_, ?_, h2.2⟩ <;> intro e he <;> cases he

theorem overrideRemove_le31 {s : IPSet} {c : Cidr} (hs : ∀ e ∈ s, e.len ≤ 31)
    (hc : c.len ≤ 31) : ∀ e ∈ overrideRemove s c, e.len ≤ 31 := by
  unfold overrideRemove
  split
  · refine ipDiff_le31 hs ?_
    intro e he
    rw [List.mem_singleton] at he
    rw [he]
    exact hc
  · exact hs

theorem phase5_lenB31 {cs : CState} (h : LenB 31 cs) : LenB 31 (phase5 cs) := by
  unfold phase5
  intro p hp
  obtain ⟨q, hq, he⟩ := List.mem_map.mp hp
  rw [← he]
  obtain ⟨h1, h2, h3, h4, h5, h6, h7⟩ := h q hq
  refine ⟨h1, h2, h3, ?_, h5, h6, h7⟩
  have main : ∀ (l : IPSet) (pi : IPSet), (∀ e ∈ pi, e.len ≤ 31) →
      ∀ e ∈ List.foldl
        (fun pi smallcidr =>
          match (iterCidrs pi).find? (fun cidr => subBlock smallcidr cidr) with
          | some cidr => ipDiff pi [cidr]
          | none => pi)
        pi l, e.len ≤ 31 := by
    intro l
    induction l with
    | nil => exact fun pi hpi e he2 => hpi e he2
    | cons x xs ih =>
      intro pi hpi
      rw [List.foldl_cons]
      apply ih
      cases hf : (iterCidrs pi).find? (fun cidr => subBlock x cidr) with
      | none =>
        simp only [hf]
        exact hpi
      | some cidr =>
        simp only [hf]
        have hcidr : cidr.len ≤ 31 := iterCidrs_le31 hpi cidr (List.mem_of_find?_eq_some hf)
        refine ipDiff_le31 hpi ?_
        intro e he2
        rw [List.mem_singleton] at he2
        rw [he2]
        exact hcidr
  exact main _ _ h4

theorem phase6_lenB31 {cs : CState} (h : LenB 31 cs) : LenB 31 (phase6 cs) := by
  unfold phase6
  intro p hp
  obtain ⟨q, hq, he⟩ := List.mem_map.mp hp
  rw [← he]
  obtain ⟨h1, h2, h3, h4, h5, h6, h7⟩ := h q hq
  exact ⟨append_le31 (ipDiff_le31 (append_le31 h1 h2) h3) h7, h2, h3,
    append_le31 (append_le31 h4 h5) h6, h5, h6, h7⟩

theorem phase7_lenB31 {cs : CState} (h : LenB 31 cs) : LenB 31 (phase7 cs) := by
  unfold phase7
  suffices hgen : ∀ (l : CState) (acc : CState), LenB 31 acc →
      LenB 31 (List.foldl
        (fun acc p =>
          match getCity acc p.1 with
          | none => acc
          | some st =>
            (iterCidrs st.override).foldl
              (fun acc2 cidr =>
                acc2.map (fun q =>
                  if q.1 == p.1 then q
                  else
                    (q.1,
                      { q.2 with
                        base := overrideRemove q.2.base cidr
                        piSpace := overrideRemove q.2.piSpace cidr })))
              acc)
        acc l) by
    exact hgen cs cs h
  intro l
  induction l with
  | nil => exact fun acc h2 => h2
  | cons x xs ih =>
    intro acc hacc
    rw [List.foldl_cons]
    apply ih
    cases hg : getCity acc x.1 with
    | none =>
      simp only [hg]
      exact hacc
    | some st =>
      simp only [hg]
      have hst : (x.1, st) ∈ acc := getCity_mem hg
      have hiter : ∀ e ∈ iterCidrs st.override, e.len ≤ 31 :=
        iterCidrs_le31 (hacc (x.1, st) hst).2.2.2.2.2.2
      have inner : ∀ (lc : List Cidr) (acc2 : CState), (∀ c2 ∈ lc, c2.len ≤ 31) →
          LenB 31 acc2 →
          LenB 31 (List.foldl
            (fun acc2 cidr =>
              acc2.map (fun q =>
                if q.1 == x.1 then q
                else
                  (q.1,
                    { q.2 with
                      base := overrideRemove q.2.base cidr
                      piSpace := overrideRemove q.2.piSpace cidr })))
            acc2 lc) := by
        intro lc
        induction lc with
        | nil => exact fun acc2 _ h2 => h2
        | cons c2 cs2 ih2 =>
          intro acc2 hlc h2
          rw [List.foldl_cons]
          apply ih2 _ (fun z hz => hlc z (List.mem_cons_of_mem _ hz))
          intro p hp
          obtain ⟨q, hq, heq⟩ := List.mem_map.mp hp
          rw [← heq]
          by_cases hqx : q.1 == x.1
          · rw [if_pos hqx]
            exact h2 q hq
          · rw [if_neg hqx]
            obtain ⟨g1, g2, g3, g4, g5, g6, g7⟩ := h2 q hq
            have hc2 : c2.len ≤ 31 := hlc c2 (List.mem_cons_self c2 cs2)
            exact ⟨overrideRemove_le31 g1 hc2, g2, g3, overrideRemove_le31 g4 hc2,
              g5, g6, g7⟩
      exact inner _ acc hiter hacc

/-- Claim C6 (amended): no single-host range appears in any final `cidrs` or
`piCidrs` output, for every set of query results, provided no configured
base or override range is itself a single-host range.  (Query-returned /32
routes are filtered by the classifier.) -/
theorem claim_C6_amended (cfg : Config) (world : World) (hnh : cfgNoHost cfg = true) :
    ∀ o ∈ (runCli cfg world).outputs,
      (∀ e ∈ o.cidrs, e.len ≤ 31) ∧ (∀ e ∈ o.piCidrs, e.len ≤ 31) := by
  intro o ho
  cases habort : (phase1Reports (initCities cfg.cities)).isEmpty with
  | false =>
    rw [runCli_abort habort] at ho
    cases ho
  | true =>
    rw [runCli_ok habort] at ho
    have h7 := phase7_lenB31 (phase6_lenB31 (phase5_lenB31
      (mainFold_lenB31 cfg world (cfgNoHost_lenB31 hnh))))
    unfold outputsOf at ho
    obtain ⟨p, hp, he⟩ := List.mem_map.mp ho
    obtain ⟨h1, _, _, h4, _⟩ := h7 p hp
    have hc : o.cidrs = iterCidrs p.2.base := by rw [← he]
    have hpc : o.piCidrs = iterCidrs p.2.piSpace := by rw [← he]
    constructor
    · intro e hee
      rw [hc] at hee
      exact iterCidrs_le31 h1 e hee
    · intro e hee
      rw [hpc] at hee
      exact iterCidrs_le31 h4 e hee

/-- Claim C6 counterexample: a configured single-host base range 1.2.3.4/32
flows straight into the final `cidrs` output. -/
theorem claim_C6_counterexample :
    ((runCli cfgHost worldNone).outputs.any
      (fun o => o.cidrs.any (fun c2 => decide (32 ≤ c2.len)))) = true := by
  decide

/-- Claim C6 amended witness. -/
theorem claim_C6_witness :
    cfgNoHost cfgDisjoint = true ∧
    (∀ o ∈ (runCli cfgDisjoint worldNone).outputs,
      (∀ e ∈ o.cidrs, e.len ≤ 31) ∧ (∀ e ∈ o.piCidrs, e.len ≤ 31)) :=
  ⟨by decide, claim_C6_amended cfgDisjoint worldNone (by decide)⟩

end Iplocbuild
